import Mathlib

/-!
# fluxline: an encoder for the Influx line protocol

A shallow embedding of `encoder.go` and a verification of its specification.

Modelling conventions.

* A Go `string` holding UTF-8 text is a Lean `String` (a sequence of code
  points).  Its bytes are given by `toBytes`; `len` counts bytes, and string
  comparison is the byte-wise lexicographic comparison of Go.
* A Go `map[string]string` is an association list with pairwise distinct keys
  (`MapOK`), listed in one of its possible iteration orders.
* A record (a Go struct seen through `reflect`) is the list of its fields in
  declaration order, each with the value of its `influx` struct tag (empty when
  the field has none); tagged fields are exported, so that reading their value
  does not panic.
* The clock `time.Now().UnixNano()` is an explicit argument.
* The sink is described by the log of the writes it has received.
* Library behaviour that is table driven or floating point (`strconv.IsPrint`
  above U+00FF, the `%g` verb) is a parameter, see `Runtime`.
-/

namespace Fluxline

/-! ## Go strings -/

/-- UTF-8 encoding of one code point, as a list of byte values. -/
def utf8Bytes (c : Char) : List Nat :=
  let n := c.toNat
  if n < 0x80 then [n]
  else if n < 0x800 then [0xC0 + n / 64, 0x80 + n % 64]
  else if n < 0x10000 then [0xE0 + n / 4096, 0x80 + n / 64 % 64, 0x80 + n % 64]
  else [0xF0 + n / 262144, 0x80 + n / 4096 % 64, 0x80 + n / 64 % 64, 0x80 + n % 64]

/-- The conversion `[]byte(s)`. -/
def toBytes (s : String) : List Nat :=
  s.data.flatMap utf8Bytes

/-- The builtin `len(s)`: the number of bytes of `s`. -/
def len (s : String) : Nat :=
  (toBytes s).length

/-- The number of characters (code points) of `s`, `utf8.RuneCountInString(s)`. -/
def runeCount (s : String) : Nat :=
  s.data.length

/-- Byte-wise lexicographic comparison, Go's `<` on the bytes of two strings. -/
def bytesLess : List Nat → List Nat → Bool
  | _, [] => false
  | [], _ :: _ => true
  | a :: as, b :: bs =>
    if a < b then true else if b < a then false else bytesLess as bs

/-- Go's `a < b` on strings. -/
def stringLess (a b : String) : Bool :=
  bytesLess (toBytes a) (toBytes b)

/-- Insertion of a key into an ascending list, the inner loop of the sort. -/
def insertSorted (k : String) : List String → List String
  | [] => [k]
  | x :: xs => if stringLess x k then x :: insertSorted k xs else k :: x :: xs

/-- `sort.Strings(keys)`: the keys in ascending order (insertion sort). -/
def sortStrings : List String → List String
  | [] => []
  | k :: ks => insertSorted k (sortStrings ks)

/-- The scan of `strings.Replace(s, old, new, -1)` for a non-empty `old`:
left to right, every non-overlapping occurrence of `old` is replaced by `new`.
The first argument counts the characters of a matched occurrence that are
still to be skipped. -/
def replaceFrom (old new : List Char) : Nat → List Char → List Char
  | _, [] => []
  | skip + 1, _ :: cs => replaceFrom old new skip cs
  | 0, c :: cs =>
    if old.isPrefixOf (c :: cs) then new ++ replaceFrom old new (old.length - 1) cs
    else c :: replaceFrom old new 0 cs

/-- `strings.Replace(s, old, new, -1)` with a non-empty `old`. -/
def stringsReplace (s old new : String) : String :=
  ⟨replaceFrom old.data new.data 0 s.data⟩

/-- `escapeSpecialChars` of encoder.go. -/
def escapeSpecialChars (s : String) : String :=
  let str := stringsReplace s "," "\\,"
  let str := stringsReplace str "=" "\\="
  let str := stringsReplace str " " "\\ "
  str

/-! ## Formatting verbs of package fmt -/

/-- The table `"0123456789abcdef"` indexed by a digit value. -/
def lowerhex (d : Nat) : Char :=
  if d < 10 then Char.ofNat (48 + d) else Char.ofNat (87 + d)

/-- The digit loop of `fmt.fmtInteger` in base 10: digits are produced from
the least significant one and stored in front of `buf`.  The first argument
bounds the number of iterations by the size of the buffer. -/
def decimalLoop : Nat → Nat → List Char → List Char
  | 0, _, buf => buf
  | fuel + 1, u, buf =>
    if 10 ≤ u then
      let next := u / 10
      decimalLoop fuel next (lowerhex (u - next * 10) :: buf)
    else lowerhex u :: buf

/-- The verb `%d` of package fmt (`fmtInteger` in base 10 without flags) on the
integer `v` converted to 64 bits; `isSigned` tells whether its type is signed. -/
def fmtInteger (v : Int) (isSigned : Bool) : String :=
  let u := (v % 2 ^ 64).toNat
  let negative := isSigned && decide (2 ^ 63 ≤ u)
  let u := if negative then (2 ^ 64 - u) % 2 ^ 64 else u
  let digits := decimalLoop 20 u []
  if negative then ⟨'-' :: digits⟩ else ⟨digits⟩

/-- Behaviour of the Go library that the encoder relies on and that is given by
tables or by floating point arithmetic. -/
structure Runtime where
  /-- The result of `strconv.IsPrint` on code points above U+00FF. -/
  printTable : Nat → Bool
  /-- The verb `%g` on a float of the given size (32 or 64) and bit pattern. -/
  fmtFloat : Nat → Nat → String

/-- `strconv.IsPrint`. -/
def IsPrint (rt : Runtime) (r : Nat) : Bool :=
  if r ≤ 0xFF then
    if 0x20 ≤ r ∧ r ≤ 0x7E then true
    else if 0xA1 ≤ r ∧ r ≤ 0xFF then r != 0xAD
    else false
  else rt.printTable r

/-- `strconv.appendEscapedRune` for the quote character `"`, neither ASCII-only
nor graphic-only. -/
def appendEscapedRune (rt : Runtime) (r : Char) : List Char :=
  if r = '"' ∨ r = '\\' then ['\\', r]
  else if IsPrint rt r.toNat then [r]
  else if r.toNat = 7 then ['\\', 'a']
  else if r.toNat = 8 then ['\\', 'b']
  else if r.toNat = 12 then ['\\', 'f']
  else if r.toNat = 10 then ['\\', 'n']
  else if r.toNat = 13 then ['\\', 'r']
  else if r.toNat = 9 then ['\\', 't']
  else if r.toNat = 11 then ['\\', 'v']
  else if r.toNat < 0x20 ∨ r.toNat = 0x7F then
    ['\\', 'x', lowerhex (r.toNat / 16 % 16), lowerhex (r.toNat % 16)]
  else if r.toNat < 0x10000 then
    ['\\', 'u', lowerhex (r.toNat / 4096 % 16), lowerhex (r.toNat / 256 % 16),
      lowerhex (r.toNat / 16 % 16), lowerhex (r.toNat % 16)]
  else
    ['\\', 'U', lowerhex (r.toNat / 268435456 % 16), lowerhex (r.toNat / 16777216 % 16),
      lowerhex (r.toNat / 1048576 % 16), lowerhex (r.toNat / 65536 % 16),
      lowerhex (r.toNat / 4096 % 16), lowerhex (r.toNat / 256 % 16),
      lowerhex (r.toNat / 16 % 16), lowerhex (r.toNat % 16)]

/-- The text between the quotes of `strconv.Quote(s)`. -/
def quoteBody (rt : Runtime) (s : String) : List Char :=
  s.data.flatMap (appendEscapedRune rt)

/-- The verb `%q` on a string: `strconv.Quote`. -/
def fmtQuote (rt : Runtime) (s : String) : String :=
  ⟨'"' :: (quoteBody rt s ++ ['"'])⟩

/-! ## Values and type conversion -/

/-- The built-in integer types accepted by `toInfluxRepr`. -/
inductive IntKind where
  | int32 | int64 | int16 | int8 | int
  | uint32 | uint64 | uint16 | uint8 | uint
  deriving DecidableEq, Repr

/-- Whether the type is signed. -/
def IntKind.signed : IntKind → Bool
  | .int32 | .int64 | .int16 | .int8 | .int => true
  | _ => false

/-- The width of the type in bits (`int` and `uint` on a 64-bit platform). -/
def IntKind.bits : IntKind → Nat
  | .int8 | .uint8 => 8
  | .int16 | .uint16 => 16
  | .int32 | .uint32 => 32
  | _ => 64

/-- The values of an integer type. -/
def IntKind.inRange (k : IntKind) (n : Int) : Prop :=
  if k.signed then -(2 ^ (k.bits - 1)) ≤ n ∧ n < 2 ^ (k.bits - 1)
  else 0 ≤ n ∧ n < 2 ^ k.bits

/-- The dynamic value of a record field, as `toInfluxRepr` sees it in its type
switch.  A `time.Time` is given by its nanoseconds since the Unix epoch, an
integer of any size: `UnixNano()` computes them in `int64` with wrap-around,
and the conversion to `uint64` that follows reduces them modulo 2^64; `other`
stands for a value of any dynamic type that the type switch does not list
(`uintptr`, complex numbers, named types, pointers, slices, and so on). -/
inductive Value where
  | string (v : String)
  | integer (k : IntKind) (v : Int)
  | float64 (bits : Nat)
  | float32 (bits : Nat)
  | bool (v : Bool)
  | time (unixNano : Int)
  | other
  deriving DecidableEq

/-- The error built by `fmt.Errorf` for a string that is too long. -/
def errTooLong (tag : String) (n : Nat) : String :=
  tag ++ ": string too long (" ++ fmtInteger n true ++ " characters, max. 64K)"

/-- The error built by `fmt.Errorf` for a value of an unsupported type. -/
def errUnsupported (tag : String) : String :=
  tag ++ ": unsupported type for Influx Line Protocol"

/-- `toInfluxRepr` of encoder.go. -/
def toInfluxRepr (rt : Runtime) (tag : String) (val : Value) (nostatictypes : Bool) :
    Except String String :=
  match val with
  | .string v =>
    if len v > 64000 then .error (errTooLong tag (len v))
    else .ok (fmtQuote rt v)
  | .integer k v =>
    if nostatictypes then .ok (fmtInteger v k.signed)
    else .ok (fmtInteger v k.signed ++ "i")
  | .float64 b => .ok (rt.fmtFloat 64 b)
  | .float32 b => .ok (rt.fmtFloat 32 b)
  | .bool v => .ok (if v then "true" else "false")
  | .time t => .ok (fmtInteger (t % 2 ^ 64) false)
  | .other => .error (errUnsupported tag)

/-! ## Maps and records -/

/-- A Go `map[string]string`, listed in an iteration order. -/
abbrev GoMap := List (String × String)

/-- The keys produced by `for key := range m`. -/
def mapKeys (m : GoMap) : List String :=
  m.map Prod.fst

/-- Well-formed maps: every key occurs once. -/
def MapOK (m : GoMap) : Prop :=
  (mapKeys m).Nodup

/-- The index expression `m[k]`, with the zero value for a missing key. -/
def mapGet : GoMap → String → String
  | [], _ => ""
  | (k', v) :: rest, k => if k' = k then v else mapGet rest k

/-- The assignment `m[k] = v`. -/
def mapSet : GoMap → String → String → GoMap
  | [], k, v => [(k, v)]
  | (k', v') :: rest, k, v => if k' = k then (k, v) :: rest else (k', v') :: mapSet rest k v

/-- A field of a record: the value of its `influx` struct tag (empty when the
field declares none) and its value. -/
structure StructField where
  influxTag : String
  value : Value
  deriving DecidableEq

/-- `recordFields` of encoder.go, over the fields in declaration order. -/
def recordFields (rt : Runtime) (val : List StructField) (fieldSet : GoMap)
    (nostatictypes : Bool) : Except String GoMap :=
  match val with
  | [] => .ok fieldSet
  | field :: rest =>
    if field.influxTag = "" then recordFields rt rest fieldSet nostatictypes
    else
      match toInfluxRepr rt field.influxTag field.value nostatictypes with
      | .error err => .error err
      | .ok repr => recordFields rt rest (mapSet fieldSet field.influxTag repr) nostatictypes

/-! ## The encoder -/

/-- The sink `io.Writer`: the error (if any) that a write returns, given the
writes received before and the bytes written. -/
structure Writer where
  result : List (List Nat) → List Nat → Option String

/-- The method `Write`: the sink receives `p`; the state is the log of writes. -/
def Writer.Write (w : Writer) (log : List (List Nat)) (p : List Nat) :
    List (List Nat) × Option String :=
  (log ++ [p], w.result log p)

/-- The struct `Encoder`. -/
structure Encoder where
  host : String
  Writer : Writer

/-- One round of the loop that serializes the tags. -/
def tagStep (tags : GoMap) (tagstr : String) (k : String) : String :=
  let tagstr := tagstr ++ ","
  tagstr ++ (escapeSpecialChars k ++ "=" ++ escapeSpecialChars (mapGet tags k))

/-- One round of the loop that serializes the fields; the state is `out` and
the flag `first`. -/
def fieldStep (fieldSet : GoMap) (st : String × Bool) (k : String) : String × Bool :=
  let st := if !st.2 then (st.1 ++ ",", st.2) else (st.1, false)
  (st.1 ++ (escapeSpecialChars k ++ "=" ++ mapGet fieldSet k), st.2)

/-- `formatLineProtocol` of encoder.go; `now` is `time.Now().UnixNano()`. -/
def Encoder.formatLineProtocol (a : Encoder) (now : Int) (pfx : String)
    (tags fieldSet : GoMap) : String :=
  let keys := sortStrings (mapKeys tags)
  let tagstr := keys.foldl (tagStep tags) ""
  let keys := sortStrings (mapKeys fieldSet)
  let out := (keys.foldl (fieldStep fieldSet) ("", true)).1
  if out = "" then ""
  else
    pfx ++ ",host=" ++ a.host ++ tagstr ++ " " ++ out ++ " " ++
      fmtInteger (now % 2 ^ 64) false ++ "\n"

/-- `encodeGeneric` of encoder.go: the log of the sink afterwards and the
returned error. -/
def Encoder.encodeGeneric (a : Encoder) (rt : Runtime) (now : Int) (log : List (List Nat))
    (pfx : String) (val : List StructField) (tags : GoMap) (nostatictypes : Bool) :
    List (List Nat) × Option String :=
  match recordFields rt val [] nostatictypes with
  | .error err => (log, some err)
  | .ok fieldSet => a.Writer.Write log (toBytes (a.formatLineProtocol now pfx tags fieldSet))

/-- `Encode` of encoder.go. -/
def Encoder.Encode (a : Encoder) (rt : Runtime) (now : Int) (log : List (List Nat))
    (pfx : String) (val : List StructField) (tags : GoMap) : List (List Nat) × Option String :=
  a.encodeGeneric rt now log pfx val tags false

/-- `EncodeWithoutTypes` of encoder.go. -/
def Encoder.EncodeWithoutTypes (a : Encoder) (rt : Runtime) (now : Int)
    (log : List (List Nat)) (pfx : String) (val : List StructField) (tags : GoMap) :
    List (List Nat) × Option String :=
  a.encodeGeneric rt now log pfx val tags true

/-- `EncodeMap` of encoder.go. -/
def Encoder.EncodeMap (a : Encoder) (now : Int) (log : List (List Nat)) (pfx : String)
    (val : GoMap) (tags : GoMap) : List (List Nat) × Option String :=
  a.Writer.Write log (toBytes (a.formatLineProtocol now pfx tags val))

/-- `NewEncoder` of encoder.go; `fqdn` is the name that `fqdn.Get()` returns. -/
def NewEncoder (w : Writer) (fqdn : String) : Encoder :=
  { host := fqdn, Writer := w }

/-- `NewEncoderWithHostname` of encoder.go. -/
def NewEncoderWithHostname (w : Writer) (host : String) : Encoder :=
  { host := host, Writer := w }

/-! ## Notions used to state the properties -/

/-- A list of strings in strictly ascending order. -/
def Ascending (ks : List String) : Prop :=
  ks.Pairwise (fun a b => stringLess a b = true)

/-- The text that replaces one character in the escaped form of a key. -/
def escapeChar (c : Char) : List Char :=
  if c = ',' then ['\\', ','] else if c = '=' then ['\\', '='] else if c = ' ' then ['\\', ' ']
  else [c]

/-- The single pass over the characters of `s` that escapes comma, equals sign
and space. -/
def escapeCharwise (s : String) : String :=
  ⟨s.data.flatMap escapeChar⟩

/-- The three replacements of `escapeSpecialChars`, in the order of the source. -/
def escapeRules : List (String × String) :=
  [(",", "\\,"), ("=", "\\="), (" ", "\\ ")]

/-- Successive whole-string replacements, one per rule, in the order of the list. -/
def replaceEach (rules : List (String × String)) (s : String) : String :=
  rules.foldl (fun str r => stringsReplace str r.1 r.2) s

/-- The characters that `escapeSpecialChars` escapes. -/
def isSpecial (c : Char) : Prop :=
  c = ',' ∨ c = '=' ∨ c = ' '

/-- Scan of a text that checks that every special character directly follows a
backslash; `prev` is the character before the text. -/
def precededByBackslash (prev : Char) : List Char → Prop
  | [] => True
  | c :: cs => (isSpecial c → prev = '\\') ∧ precededByBackslash c cs

/-- The tag segment of a line: for each entry, in the order given, a comma, the
escaped key, an equals sign and the escaped value. -/
def tagSegment (entries : List (String × String)) : String :=
  String.join (entries.map fun e => "," ++ escapeSpecialChars e.1 ++ "=" ++ escapeSpecialChars e.2)

/-- The field segment of a line: the comma-join, over the entries in the order
given, of the escaped key, an equals sign and the value as it is. -/
def fieldSegment (entries : List (String × String)) : String :=
  ",".intercalate (entries.map fun e => escapeSpecialChars e.1 ++ "=" ++ e.2)

/-- The trailing timestamp of a line: the clock value converted to `uint64`. -/
def timestamp (now : Int) : Nat :=
  (now % 2 ^ 64).toNat

/-- The decimal numeral of a natural number. -/
def decimal (n : Nat) : String :=
  Nat.repr n

/-- The digits of `u`, most significant first. -/
def digitsOf (u : Nat) : List Nat :=
  if u = 0 then [0] else (Nat.digits 10 u).reverse

/-- The number of consecutive backslashes that end the text `pre`. -/
def backslashesBefore (pre : List Char) : Nat :=
  (pre.reverse.takeWhile fun c => c == '\\').length

/-- The value of a hexadecimal digit. -/
def hexValue (c : Char) : Nat :=
  if c.toNat < 58 then c.toNat - 48 else c.toNat - 87

/-- The character denoted by a one-letter escape. -/
def simpleEscape (c : Char) : Char :=
  if c = 'a' then Char.ofNat 7 else if c = 'b' then Char.ofNat 8
  else if c = 'f' then Char.ofNat 12 else if c = 'n' then Char.ofNat 10
  else if c = 'r' then Char.ofNat 13 else if c = 't' then Char.ofNat 9
  else if c = 'v' then Char.ofNat 11 else c

/-- Where the reader of a quoted text stands: in plain text, after a backslash,
or inside a hexadecimal escape with some digits left and a value so far. -/
inductive UnquoteState where
  | text
  | escape
  | hex (remaining value : Nat)

/-- A reader that recovers a string from the text between the quotes. -/
def unquoteFrom : UnquoteState → List Char → List Char
  | _, [] => []
  | .text, c :: cs => if c = '\\' then unquoteFrom .escape cs else c :: unquoteFrom .text cs
  | .escape, c :: cs =>
    if c = 'x' then unquoteFrom (.hex 2 0) cs
    else if c = 'u' then unquoteFrom (.hex 4 0) cs
    else if c = 'U' then unquoteFrom (.hex 8 0) cs
    else simpleEscape c :: unquoteFrom .text cs
  | .hex k v, c :: cs =>
    if k ≤ 1 then Char.ofNat (v * 16 + hexValue c) :: unquoteFrom .text cs
    else unquoteFrom (.hex (k - 1) (v * 16 + hexValue c)) cs

/-- The decimal numeral of an integer: a minus sign for a negative number, then
the numeral of the absolute value. -/
def decimalInt (n : Int) : String :=
  if n < 0 then "-" ++ decimal n.natAbs else decimal n.natAbs

/-- The values of the types that the conversion table lists: string, built-in
integer, 32/64-bit float, boolean, instant in time. -/
def Value.supported : Value → Bool
  | .string _ => true
  | .integer _ _ => true
  | .float64 _ => true
  | .float32 _ => true
  | .bool _ => true
  | .time _ => true
  | .other => false

/-- Whether the value has one of the built-in integer types. -/
def Value.isInteger : Value → Bool
  | .integer _ _ => true
  | _ => false

/-- The non-empty wire tags of a record, in declaration order. -/
def wireTags (val : List StructField) : List String :=
  (val.filter fun f => decide (f.influxTag ≠ "")).map fun f => f.influxTag

/-- The reader that undoes `escapeSpecialChars`: it deletes the backslash that
stands directly before a comma, an equals sign or a space.  The flag tells
whether a backslash has been read and is still held back. -/
def unescapeFrom : Bool → List Char → List Char
  | false, [] => []
  | true, [] => ['\\']
  | false, c :: cs => if c = '\\' then unescapeFrom true cs else c :: unescapeFrom false cs
  | true, c :: cs =>
    if c = ',' ∨ c = '=' ∨ c = ' ' then c :: unescapeFrom false cs
    else if c = '\\' then '\\' :: unescapeFrom true cs
    else '\\' :: c :: unescapeFrom false cs

/-- The inverse of `escapeSpecialChars` on strings. -/
def unescapeSpecialChars (s : String) : String :=
  ⟨unescapeFrom false s.data⟩

/-- The position of the first space of the text that does not directly follow a
backslash, if there is one; the flag tells whether the character before the
text is a backslash. -/
def firstFreeSpace : Bool → List Char → Option Nat
  | _, [] => none
  | esc, c :: cs =>
    if c = ' ' ∧ esc = false then some 0
    else (firstFreeSpace (c == '\\') cs).map (· + 1)

/-- Whether the last character read is a backslash, after the text has been read
from a position where the flag tells whether the previous character is one. -/
def endsWithBackslash : Bool → List Char → Bool
  | e, [] => e
  | _, c :: cs => endsWithBackslash (c == '\\') cs

/-! ## Properties -/

theorem utf8Bytes_ne_nil (c : Char) : utf8Bytes c ≠ [] := by
  unfold utf8Bytes
  simp only []
  split_ifs <;> simp

theorem utf8Bytes_append_inj (c d : Char) (x y : List Nat)
    (h : utf8Bytes c ++ x = utf8Bytes d ++ y) : c = d ∧ x = y := by
  have key : c.toNat = d.toNat ∧ x = y := by
    unfold utf8Bytes at h
    simp only [] at h
    split_ifs at h <;>
      simp only [List.cons_append, List.nil_append, List.cons.injEq] at h <;>
      (refine ⟨?_, ?_⟩ <;> first | omega | (simp [h]))
  refine ⟨?_, key.2⟩
  have h1 := Char.ofNat_toNat c
  have h2 := Char.ofNat_toNat d
  rw [← h1, ← h2, key.1]

theorem toBytes_injective (a b : String) (h : toBytes a = toBytes b) : a = b := by
  obtain ⟨l⟩ := a
  obtain ⟨m⟩ := b
  simp only [toBytes] at h
  congr 1
  induction l generalizing m with
  | nil =>
    cases m with
    | nil => rfl
    | cons d m =>
      simp only [List.flatMap_nil, List.flatMap_cons] at h
      have := utf8Bytes_ne_nil d
      cases hd : utf8Bytes d with
      | nil => exact absurd hd this
      | cons _ _ => rw [hd] at h; simp at h
  | cons c l ih =>
    cases m with
    | nil =>
      simp only [List.flatMap_nil, List.flatMap_cons] at h
      have := utf8Bytes_ne_nil c
      cases hc : utf8Bytes c with
      | nil => exact absurd hc this
      | cons _ _ => rw [hc] at h; simp at h
    | cons d m =>
      simp only [List.flatMap_cons] at h
      obtain ⟨h1, h2⟩ := utf8Bytes_append_inj c d _ _ h
      rw [h1, ih m h2]

theorem bytesLess_iff (x y : List Nat) : bytesLess x y = true ↔ x < y := by
  induction x generalizing y with
  | nil =>
    cases y with
    | nil => simp [bytesLess]
    | cons b bs => simp only [bytesLess, true_iff]; exact List.Lex.nil
  | cons a as ih =>
    cases y with
    | nil => simp [bytesLess]
    | cons b bs =>
      simp only [bytesLess]
      rcases Nat.lt_trichotomy a b with h | h | h
      · simp only [h, if_true, true_iff]
        exact List.Lex.rel h
      · subst h
        simp only [lt_irrefl, if_false]
        rw [ih]
        constructor
        · intro h; exact List.Lex.cons h
        · intro h
          cases h with
          | rel h => exact absurd h (lt_irrefl _)
          | cons h => exact h
      · have h' : ¬ a < b := by omega
        simp only [h', h, if_false, if_true]
        constructor
        · intro h; cases h
        · intro h2
          cases h2 with
          | rel h3 => omega
          | cons h3 => omega

theorem stringLess_iff (a b : String) : stringLess a b = true ↔ toBytes a < toBytes b :=
  bytesLess_iff _ _

theorem stringLess_irrefl (a : String) : stringLess a a = false := by
  have := (stringLess_iff a a).not
  simpa using this

theorem stringLess_trans {a b c : String} (h1 : stringLess a b = true)
    (h2 : stringLess b c = true) : stringLess a c = true := by
  rw [stringLess_iff] at *
  exact lt_trans h1 h2

theorem stringLess_asymm {a b : String} (h1 : stringLess a b = true) :
    stringLess b a = false := by
  have h := (stringLess_iff b a).not
  rw [stringLess_iff] at h1
  have : ¬ toBytes b < toBytes a := not_lt.mpr (le_of_lt h1)
  simpa using h.mpr this

theorem stringLess_total {a b : String} (h1 : stringLess a b = false)
    (h2 : stringLess b a = false) : a = b := by
  apply toBytes_injective
  have e1 := (stringLess_iff a b).not
  have e2 := (stringLess_iff b a).not
  simp only [h1, h2, Bool.false_eq_true, not_false_eq_true, true_iff, not_lt] at e1 e2
  exact le_antisymm e2 e1

theorem sortStrings_eq (l : List String) :
    sortStrings l = List.insertionSort (fun a b => stringLess b a = false) l := by
  induction l with
  | nil => rfl
  | cons k ks ih =>
    simp only [sortStrings, List.insertionSort, ih]
    generalize List.insertionSort (fun a b => stringLess b a = false) ks = m
    induction m with
    | nil => rfl
    | cons x xs ih2 =>
      simp only [insertSorted, List.orderedInsert]
      by_cases h : stringLess x k = true
      · simp [h, ih2]
      · simp [h]

theorem sortStrings_perm (l : List String) : (sortStrings l).Perm l := by
  rw [sortStrings_eq]
  exact List.perm_insertionSort _ l

theorem sortStrings_sorted (l : List String) :
    (sortStrings l).Pairwise (fun a b => stringLess b a = false) := by
  rw [sortStrings_eq]
  haveI : IsTotal String (fun a b => stringLess b a = false) := ⟨by
    intro a b
    by_cases h : stringLess b a = true
    · right; exact stringLess_asymm h
    · left; simpa using h⟩
  haveI : IsTrans String (fun a b => stringLess b a = false) := ⟨by
    intro a b c h1 h2
    have e1 := (stringLess_iff b a).not
    have e2 := (stringLess_iff c b).not
    have e3 := (stringLess_iff c a).not
    simp only [h1, h2, Bool.false_eq_true, not_false_eq_true, true_iff, not_lt] at e1 e2
    have : ¬ toBytes c < toBytes a := not_lt.mpr (le_trans e1 e2)
    simpa using e3.mpr this⟩
  exact List.sorted_insertionSort _ l

theorem sortStrings_ascending (l : List String) (h : l.Nodup) : Ascending (sortStrings l) := by
  have hs := sortStrings_sorted l
  have hn : (sortStrings l).Nodup := (sortStrings_perm l).nodup_iff.mpr h
  unfold Ascending
  have := hs.and hn
  refine this.imp ?_
  intro a b hab
  by_contra hc
  exact hab.2 (stringLess_total (by simpa using hc) hab.1)

theorem ascending_nodup {ks : List String} (h : Ascending ks) : ks.Nodup := by
  unfold Ascending at h
  refine h.imp ?_
  intro a b hab heq
  subst heq
  rw [stringLess_irrefl] at hab
  exact absurd hab (by simp)

theorem ascending_unique {ks l : List String} (hp : ks.Perm l) (ha : Ascending ks) :
    sortStrings l = ks := by
  have hn : l.Nodup := hp.nodup_iff.mp (ascending_nodup ha)
  have h2 := sortStrings_ascending l hn
  haveI : IsAntisymm String (fun a b => stringLess a b = true) := ⟨by
    intro a b h1 h2
    rw [stringLess_asymm h1] at h2
    exact absurd h2 (by simp)⟩
  exact List.eq_of_perm_of_sorted ((sortStrings_perm l).trans hp.symm) h2 ha

theorem replaceFrom_single (o : Char) (new l : List Char) :
    replaceFrom [o] new 0 l = l.flatMap (fun c => if c = o then new else [c]) := by
  induction l with
  | nil => rfl
  | cons c cs ih =>
    simp only [replaceFrom, List.isPrefixOf, List.length_singleton, Nat.sub_self,
      List.flatMap_cons, ih]
    by_cases h : c = o
    · subst h; simp
    · have h' : ¬ o = c := fun e => h e.symm
      simp [h, h']

theorem stringsReplace_single (s : String) (o : Char) (new : String) :
    stringsReplace s ⟨[o]⟩ new = ⟨s.data.flatMap (fun c => if c = o then new.data else [c])⟩ := by
  simp only [stringsReplace, replaceFrom_single]

theorem flatMap_flatMap_chars (l : List Char) (f g : Char → List Char) :
    (l.flatMap f).flatMap g = l.flatMap (fun c => (f c).flatMap g) := by
  induction l with
  | nil => rfl
  | cons c cs ih => simp [List.flatMap_cons, List.flatMap_append, ih]

theorem replace3_charwise (s : String) (o1 o2 o3 : Char) (n1 n2 n3 : String)
    (h : ∀ c, (((if c = o1 then n1.data else [c]).flatMap
        (fun c => if c = o2 then n2.data else [c])).flatMap
        (fun c => if c = o3 then n3.data else [c])) = escapeChar c) :
    stringsReplace (stringsReplace (stringsReplace s ⟨[o1]⟩ n1) ⟨[o2]⟩ n2) ⟨[o3]⟩ n3
      = escapeCharwise s := by
  simp only [stringsReplace_single, flatMap_flatMap_chars, escapeCharwise, h]

theorem escapeChar_cases (c : Char) :
    (c = ',' ∧ escapeChar c = ['\\', ',']) ∨ (c = '=' ∧ escapeChar c = ['\\', '='])
      ∨ (c = ' ' ∧ escapeChar c = ['\\', ' ']) ∨ (¬ isSpecial c ∧ escapeChar c = [c]) := by
  unfold escapeChar isSpecial
  by_cases h1 : c = ','
  · left; subst h1; exact ⟨rfl, rfl⟩
  · by_cases h2 : c = '='
    · right; left; subst h2; exact ⟨rfl, rfl⟩
    · by_cases h3 : c = ' '
      · right; right; left; subst h3; exact ⟨rfl, rfl⟩
      · right; right; right
        simp [h1, h2, h3]

theorem escapeSpecialChars_eq (s : String) : escapeSpecialChars s = escapeCharwise s := by
  unfold escapeSpecialChars
  apply replace3_charwise s ',' '=' ' ' "\\," "\\=" "\\ "
  intro c
  rcases escapeChar_cases c with h | h | h | h
  · rw [h.2, h.1]; rfl
  · rw [h.2, h.1]; rfl
  · rw [h.2, h.1]; rfl
  · rw [h.2]
    have := h.1
    unfold isSpecial at this
    push_neg at this
    simp [this.1, this.2.1, this.2.2]

theorem replaceEach_perm (s : String) (rules : List (String × String))
    (hp : rules.Perm escapeRules) : replaceEach rules s = escapeCharwise s := by
  have hlen := hp.length_eq
  have hsub : ∀ r ∈ rules, r = (",", "\\,") ∨ r = ("=", "\\=") ∨ r = (" ", "\\ ") := by
    intro r hr
    have := hp.subset hr
    simpa [escapeRules] using this
  have hnd : rules.Nodup := hp.nodup_iff.mpr (by decide)
  match rules, hlen, hsub, hnd with
  | [a, b, c], _, hsub, hnd =>
    have ha := hsub a (by simp)
    have hb := hsub b (by simp)
    have hc := hsub c (by simp)
    simp only [List.nodup_cons, List.mem_cons, List.mem_singleton, not_or, List.not_mem_nil,
      not_false_eq_true, List.nodup_nil, and_true] at hnd
    obtain ⟨⟨hab, hac⟩, hbc⟩ := hnd
    have key : ∀ (o1 o2 o3 : Char) (n1 n2 n3 : String),
        (∀ c, (((if c = o1 then n1.data else [c]).flatMap
          (fun c => if c = o2 then n2.data else [c])).flatMap
          (fun c => if c = o3 then n3.data else [c])) = escapeChar c) →
        replaceEach [(⟨[o1]⟩, n1), (⟨[o2]⟩, n2), (⟨[o3]⟩, n3)] s = escapeCharwise s := by
      intro o1 o2 o3 n1 n2 n3 h
      exact replace3_charwise s o1 o2 o3 n1 n2 n3 h
    have pt : ∀ (o1 o2 o3 : Char) (n1 n2 n3 : String),
        (o1 = ',' ∧ n1 = "\\," ∧ o2 = '=' ∧ n2 = "\\=" ∧ o3 = ' ' ∧ n3 = "\\ ") ∨
        (o1 = ',' ∧ n1 = "\\," ∧ o3 = '=' ∧ n3 = "\\=" ∧ o2 = ' ' ∧ n2 = "\\ ") ∨
        (o2 = ',' ∧ n2 = "\\," ∧ o1 = '=' ∧ n1 = "\\=" ∧ o3 = ' ' ∧ n3 = "\\ ") ∨
        (o2 = ',' ∧ n2 = "\\," ∧ o3 = '=' ∧ n3 = "\\=" ∧ o1 = ' ' ∧ n1 = "\\ ") ∨
        (o3 = ',' ∧ n3 = "\\," ∧ o1 = '=' ∧ n1 = "\\=" ∧ o2 = ' ' ∧ n2 = "\\ ") ∨
        (o3 = ',' ∧ n3 = "\\," ∧ o2 = '=' ∧ n2 = "\\=" ∧ o1 = ' ' ∧ n1 = "\\ ") →
        ∀ c, (((if c = o1 then n1.data else [c]).flatMap
          (fun c => if c = o2 then n2.data else [c])).flatMap
          (fun c => if c = o3 then n3.data else [c])) = escapeChar c := by
      intro o1 o2 o3 n1 n2 n3 h c
      rcases escapeChar_cases c with hc | hc | hc | hc
      · rw [hc.2, hc.1]
        rcases h with h | h | h | h | h | h <;>
          obtain ⟨h1, h2, h3, h4, h5, h6⟩ := h <;> subst h1 h2 h3 h4 h5 h6 <;> rfl
      · rw [hc.2, hc.1]
        rcases h with h | h | h | h | h | h <;>
          obtain ⟨h1, h2, h3, h4, h5, h6⟩ := h <;> subst h1 h2 h3 h4 h5 h6 <;> rfl
      · rw [hc.2, hc.1]
        rcases h with h | h | h | h | h | h <;>
          obtain ⟨h1, h2, h3, h4, h5, h6⟩ := h <;> subst h1 h2 h3 h4 h5 h6 <;> rfl
      · rw [hc.2]
        have hn := hc.1
        unfold isSpecial at hn
        push_neg at hn
        rcases h with h | h | h | h | h | h <;>
          obtain ⟨h1, h2, h3, h4, h5, h6⟩ := h <;> subst h1 h2 h3 h4 h5 h6 <;>
          simp [hn.1, hn.2.1, hn.2.2]
    rcases ha with ha | ha | ha <;> rcases hb with hb | hb | hb <;>
      rcases hc with hc | hc | hc <;> subst ha hb hc <;>
      first
        | exact absurd rfl hab
        | exact absurd rfl hac
        | exact absurd rfl hbc
        | exact key ',' '=' ' ' _ _ _ (pt _ _ _ _ _ _ (by simp))
        | exact key ',' ' ' '=' _ _ _ (pt _ _ _ _ _ _ (by simp))
        | exact key '=' ',' ' ' _ _ _ (pt _ _ _ _ _ _ (by simp))
        | exact key '=' ' ' ',' _ _ _ (pt _ _ _ _ _ _ (by simp))
        | exact key ' ' ',' '=' _ _ _ (pt _ _ _ _ _ _ (by simp))
        | exact key ' ' '=' ',' _ _ _ (pt _ _ _ _ _ _ (by simp))

/-- Claim C6: `escapeSpecialChars` (three successive whole-string replacements: comma,
equals sign, space) is the single character-wise pass `escapeCharwise`, and the
three replacements applied in any order give that same result. -/
theorem escapeSpecialChars_charwise (s : String) :
    escapeSpecialChars s = replaceEach escapeRules s ∧
    escapeSpecialChars s = escapeCharwise s ∧
    ∀ rules : List (String × String), rules.Perm escapeRules →
      replaceEach rules s = escapeCharwise s :=
  ⟨rfl, escapeSpecialChars_eq s, fun rules hp => replaceEach_perm s rules hp⟩

theorem precededByBackslash_escape (p : Char) (l : List Char) :
    precededByBackslash p (l.flatMap escapeChar) := by
  induction l generalizing p with
  | nil => trivial
  | cons c cs ih =>
    rw [List.flatMap_cons]
    rcases escapeChar_cases c with h | h | h | h
    · rw [h.2]
      exact ⟨fun hs => by rcases hs with e | e | e <;> exact absurd e (by decide),
        fun _ => rfl, ih _⟩
    · rw [h.2]
      exact ⟨fun hs => by rcases hs with e | e | e <;> exact absurd e (by decide),
        fun _ => rfl, ih _⟩
    · rw [h.2]
      exact ⟨fun hs => by rcases hs with e | e | e <;> exact absurd e (by decide),
        fun _ => rfl, ih _⟩
    · rw [h.2]
      exact ⟨fun hs => absurd hs h.1, ih _⟩

theorem precededByBackslash_split (p : Char) (l pre post : List Char) (c : Char)
    (h : precededByBackslash p l) (hl : l = pre ++ c :: post) (hc : isSpecial c) :
    (pre = [] ∧ p = '\\') ∨ ∃ q, pre = q ++ ['\\'] := by
  induction pre generalizing p l with
  | nil =>
    subst hl
    exact Or.inl ⟨rfl, h.1 hc⟩
  | cons d ds ih =>
    subst hl
    right
    rcases ih d (ds ++ c :: post) h.2 rfl with h1 | ⟨q, hq⟩
    · refine ⟨[], ?_⟩
      rw [h1.1, h1.2]
      rfl
    · exact ⟨d :: q, by rw [hq]; rfl⟩

theorem count_escapeChar (c d : Char) (hc : isSpecial c) :
    (escapeChar d).count c = [d].count c := by
  rcases escapeChar_cases d with h | h | h | h
  · rw [h.2, h.1]
    rcases hc with e | e | e <;> subst e <;> decide
  · rw [h.2, h.1]
    rcases hc with e | e | e <;> subst e <;> decide
  · rw [h.2, h.1]
    rcases hc with e | e | e <;> subst e <;> decide
  · rw [h.2]

theorem count_escape (c : Char) (l : List Char) (hc : isSpecial c) :
    (l.flatMap escapeChar).count c = l.count c := by
  induction l with
  | nil => rfl
  | cons d ds ih =>
    rw [List.flatMap_cons, List.count_append, ih, count_escapeChar c d hc]
    rw [show d :: ds = [d] ++ ds from rfl, List.count_append]

/-- Claim C7: in `escapeSpecialChars s` every comma, equals sign and space directly
follows a backslash, and the result has as many commas, equals signs and
spaces as `s` has. -/
theorem escapeSpecialChars_escaped (s : String) :
    (∀ (pre post : List Char) (c : Char), (escapeSpecialChars s).data = pre ++ c :: post →
      isSpecial c → ∃ q, pre = q ++ ['\\']) ∧
    (escapeSpecialChars s).data.count ',' = s.data.count ',' ∧
    (escapeSpecialChars s).data.count '=' = s.data.count '=' ∧
    (escapeSpecialChars s).data.count ' ' = s.data.count ' ' := by
  rw [escapeSpecialChars_eq]
  refine ⟨?_, count_escape _ _ (Or.inl rfl), count_escape _ _ (Or.inr (Or.inl rfl)),
    count_escape _ _ (Or.inr (Or.inr rfl))⟩
  intro pre post c hl hc
  rcases precededByBackslash_split 'x' _ pre post c
    (precededByBackslash_escape 'x' s.data) hl hc with h | h
  · exact absurd h.2 (by decide)
  · exact h

theorem lowerhex_eq_digitChar (d : Nat) (h : d < 10) : lowerhex d = Nat.digitChar d := by
  interval_cases d <;> rfl

theorem decimalLoop_eq_toDigitsCore (f1 : Nat) :
    ∀ (f2 u : Nat) (buf : List Char), 0 < f1 → u < 10 ^ f1 → u < f2 →
      decimalLoop f1 u buf = Nat.toDigitsCore 10 f2 u buf := by
  induction f1 with
  | zero => intro f2 u buf h; exact absurd h (lt_irrefl 0)
  | succ n ih =>
    intro f2 u buf _ hu hf
    cases f2 with
    | zero => exact absurd hf (Nat.not_lt_zero u)
    | succ m =>
      simp only [decimalLoop, Nat.toDigitsCore]
      by_cases h10 : 10 ≤ u
      · have hne : ¬ u / 10 = 0 := by omega
        have hd : u - u / 10 * 10 = u % 10 := by omega
        rw [if_pos h10, if_neg hne, hd, lowerhex_eq_digitChar _ (Nat.mod_lt _ (by decide))]
        have hn : 0 < n := by
          rcases Nat.eq_zero_or_pos n with h0 | h0
          · subst h0; simp at hu; omega
          · exact h0
        apply ih m (u / 10) _ hn
        · rw [pow_succ] at hu
          omega
        · omega
      · have he : u / 10 = 0 := by omega
        have hm : u % 10 = u := by omega
        rw [if_neg h10, if_pos he, hm, lowerhex_eq_digitChar _ (by omega)]

theorem decimalLoop_eq_toDigits (u : Nat) (h : u < 2 ^ 64) :
    decimalLoop 20 u [] = Nat.toDigits 10 u := by
  unfold Nat.toDigits
  apply decimalLoop_eq_toDigitsCore 20 (u + 1) u [] (by decide)
  · have : (2:Nat) ^ 64 < 10 ^ 20 := by norm_num
    omega
  · omega

theorem fmtInteger_unsigned (u : Nat) (h : u < 2 ^ 64) :
    fmtInteger (u : Int) false = decimal u := by
  have h1 : ((u : Int) % 2 ^ 64).toNat = u := by
    have : ((u : Int) % 2 ^ 64) = ((u % 2 ^ 64 : Nat) : Int) := by norm_cast
    rw [this, Int.toNat_natCast, Nat.mod_eq_of_lt h]
  simp only [fmtInteger, h1, Bool.false_and, Bool.false_eq_true, if_false]
  rw [decimalLoop_eq_toDigits u h]
  rfl

theorem timestamp_lt (now : Int) : timestamp now < 2 ^ 64 := by
  unfold timestamp
  have h1 : (0:Int) ≤ now % 2 ^ 64 := Int.emod_nonneg _ (by norm_num)
  have h2 : now % 2 ^ 64 < 2 ^ 64 := Int.emod_lt_of_pos _ (by norm_num)
  omega

theorem fmtInteger_timestamp (now : Int) :
    fmtInteger (now % 2 ^ 64) false = decimal (timestamp now) := by
  rw [← fmtInteger_unsigned _ (timestamp_lt now)]
  unfold timestamp
  rw [Int.toNat_of_nonneg (Int.emod_nonneg _ (by norm_num))]

theorem join_foldl (l : List String) (acc : String) :
    l.foldl (fun r s => r ++ s) acc = acc ++ String.join l := by
  unfold String.join
  induction l generalizing acc with
  | nil => simp
  | cons x xs ih =>
    simp only [List.foldl_cons]
    rw [ih (acc ++ x), ih ("" ++ x), String.empty_append, String.append_assoc]

theorem join_cons (x : String) (xs : List String) :
    String.join (x :: xs) = x ++ String.join xs := by
  show List.foldl (fun r s => r ++ s) ("" ++ x) xs = _
  rw [join_foldl, String.empty_append]

theorem foldl_tagStep (tags : GoMap) (ks : List String) (acc : String) :
    ks.foldl (tagStep tags) acc =
      acc ++ String.join (ks.map fun k =>
        "," ++ escapeSpecialChars k ++ "=" ++ escapeSpecialChars (mapGet tags k)) := by
  induction ks generalizing acc with
  | nil => simp [String.join]
  | cons k ks ih =>
    simp only [List.foldl_cons, List.map_cons, join_cons, ih]
    simp only [tagStep, String.append_assoc]

theorem foldl_fieldStep_rest (fieldSet : GoMap) (ks : List String) (out : String) :
    (ks.foldl (fieldStep fieldSet) (out, false)).1 =
      String.intercalate.go out ","
        (ks.map fun k => escapeSpecialChars k ++ "=" ++ mapGet fieldSet k) := by
  induction ks generalizing out with
  | nil => simp [String.intercalate.go]
  | cons k ks ih =>
    simp only [List.foldl_cons, List.map_cons, String.intercalate.go]
    rw [← ih]
    simp [fieldStep]

theorem foldl_fieldStep (fieldSet : GoMap) (ks : List String) :
    (ks.foldl (fieldStep fieldSet) ("", true)).1 =
      ",".intercalate (ks.map fun k => escapeSpecialChars k ++ "=" ++ mapGet fieldSet k) := by
  cases ks with
  | nil => simp [String.intercalate]
  | cons k ks =>
    simp only [List.foldl_cons, List.map_cons, String.intercalate]
    rw [← foldl_fieldStep_rest]
    simp [fieldStep]

theorem intercalate_go_length (acc s : String) (l : List String) :
    acc.length ≤ (String.intercalate.go acc s l).length := by
  induction l generalizing acc with
  | nil => simp [String.intercalate.go]
  | cons x xs ih =>
    simp only [String.intercalate.go]
    refine le_trans ?_ (ih _)
    simp only [String.length_append]
    omega

theorem intercalate_pieces_ne (f : String → String) (k : String) (ks : List String) :
    ",".intercalate ((k :: ks).map fun k => escapeSpecialChars k ++ "=" ++ f k) ≠ "" := by
  intro h
  have h1 := intercalate_go_length (escapeSpecialChars k ++ "=" ++ f k) ","
    (ks.map fun k => escapeSpecialChars k ++ "=" ++ f k)
  simp only [List.map_cons, String.intercalate] at h
  rw [h] at h1
  simp only [String.length_append] at h1
  have : ("=" : String).length = 1 := rfl
  have : ("" : String).length = 0 := rfl
  omega

theorem mapGet_of_mem (m : GoMap) (k v : String) (hm : MapOK m) (h : (k, v) ∈ m) :
    mapGet m k = v := by
  induction m with
  | nil => cases h
  | cons e rest ih =>
    obtain ⟨k', v'⟩ := e
    unfold MapOK mapKeys at hm
    simp only [List.map_cons, List.nodup_cons] at hm
    simp only [mapGet]
    rcases List.mem_cons.mp h with h1 | h1
    · simp only [Prod.mk.injEq] at h1
      simp [h1.1, h1.2]
    · have hne : ¬ k' = k := by
        intro e
        apply hm.1
        rw [e]
        exact List.mem_map.mpr ⟨(k, v), h1, rfl⟩
      rw [if_neg hne]
      exact ih hm.2 h1

theorem sorted_keys_pieces (m es : GoMap) (hp : es.Perm m) (ha : Ascending (mapKeys es))
    (f : String → String → String) :
    (sortStrings (mapKeys m)).map (fun k => f k (mapGet m k)) = es.map (fun e => f e.1 e.2) := by
  have hk : (mapKeys es).Perm (mapKeys m) := hp.map _
  have hm : MapOK m := hk.nodup_iff.mp (ascending_nodup ha)
  rw [ascending_unique hk ha]
  unfold mapKeys
  rw [List.map_map]
  apply List.map_congr_left
  intro e he
  simp only [Function.comp]
  rw [mapGet_of_mem m e.1 e.2 hm (hp.subset he)]

theorem formatLineProtocol_unfold (a : Encoder) (now : Int) (pfx : String)
    (tags fieldSet : GoMap) (hne : fieldSet ≠ []) :
    a.formatLineProtocol now pfx tags fieldSet =
      pfx ++ ",host=" ++ a.host ++
        String.join ((sortStrings (mapKeys tags)).map fun k =>
          "," ++ escapeSpecialChars k ++ "=" ++ escapeSpecialChars (mapGet tags k)) ++ " " ++
        ",".intercalate ((sortStrings (mapKeys fieldSet)).map fun k =>
          escapeSpecialChars k ++ "=" ++ mapGet fieldSet k) ++ " " ++
        decimal (timestamp now) ++ "\n" := by
  unfold Encoder.formatLineProtocol
  simp only [foldl_tagStep, foldl_fieldStep, String.empty_append, fmtInteger_timestamp]
  have hk : sortStrings (mapKeys fieldSet) ≠ [] := by
    intro h
    have hp := sortStrings_perm (mapKeys fieldSet)
    rw [h] at hp
    have := hp.length_eq
    cases fieldSet with
    | nil => exact hne rfl
    | cons e es => simp [mapKeys] at this
  cases hs : sortStrings (mapKeys fieldSet) with
  | nil => exact absurd hs hk
  | cons k ks =>
    rw [if_neg (intercalate_pieces_ne (mapGet fieldSet) k ks)]

/-- Claim C1: for a non-empty field mapping, the line is the prefix, `,host=` and the
host, the tag segment over the tags sorted by key, a space, the field segment
over the fields sorted by key, a space, the decimal timestamp and a newline;
prefix, host and field values are embedded as they are. -/
theorem formatLineProtocol_line (a : Encoder) (now : Int) (pfx : String)
    (tags fieldSet te fe : GoMap) (hne : fieldSet ≠ [])
    (hte : te.Perm tags) (hta : Ascending (mapKeys te))
    (hfe : fe.Perm fieldSet) (hfa : Ascending (mapKeys fe)) :
    a.formatLineProtocol now pfx tags fieldSet =
      pfx ++ ",host=" ++ a.host ++ tagSegment te ++ " " ++ fieldSegment fe ++ " " ++
        decimal (timestamp now) ++ "\n" := by
  rw [formatLineProtocol_unfold a now pfx tags fieldSet hne]
  unfold tagSegment fieldSegment
  rw [sorted_keys_pieces tags te hte hta
      (fun k v => "," ++ escapeSpecialChars k ++ "=" ++ escapeSpecialChars v),
    sorted_keys_pieces fieldSet fe hfe hfa (fun k v => escapeSpecialChars k ++ "=" ++ v)]

theorem formatLineProtocol_line_witness :
    (NewEncoderWithHostname ⟨fun _ _ => none⟩ "h").formatLineProtocol 7 "m"
        [("foo", "bar"), ("baaz gogo", "gu,gu")] [("v", "1i"), ("b", "true")] =
      "m" ++ ",host=" ++ "h" ++ tagSegment [("baaz gogo", "gu,gu"), ("foo", "bar")] ++ " " ++
        fieldSegment [("b", "true"), ("v", "1i")] ++ " " ++ decimal (timestamp 7) ++ "\n" :=
  formatLineProtocol_line _ 7 "m" [("foo", "bar"), ("baaz gogo", "gu,gu")]
    [("v", "1i"), ("b", "true")] [("baaz gogo", "gu,gu"), ("foo", "bar")]
    [("b", "true"), ("v", "1i")] (by decide) (by decide) (by unfold Ascending; decide)
    (by decide) (by unfold Ascending; decide)

theorem recordFields_untagged (rt : Runtime) (val : List StructField) (fieldSet : GoMap)
    (m : Bool) (h : ∀ f ∈ val, f.influxTag = "") :
    recordFields rt val fieldSet m = .ok fieldSet := by
  induction val with
  | nil => rfl
  | cons f rest ih =>
    simp only [recordFields]
    rw [if_pos (h f (List.mem_cons_self _ _))]
    exact ih (fun g hg => h g (List.mem_cons_of_mem _ hg))

theorem formatLineProtocol_nil (a : Encoder) (now : Int) (pfx : String) (tags : GoMap) :
    a.formatLineProtocol now pfx tags [] = "" := by
  simp [Encoder.formatLineProtocol, mapKeys, sortStrings]

/-- Claim C2: when no field of the record carries a wire tag, `Encode` and
`EncodeWithoutTypes` make exactly one write, of zero bytes, and return what that
write returns (so they succeed whenever the sink accepts it), for every prefix
and every tag mapping. -/
theorem encode_without_tagged_fields (a : Encoder) (rt : Runtime) (now : Int)
    (log : List (List Nat)) (pfx : String) (val : List StructField) (tags : GoMap)
    (h : ∀ f ∈ val, f.influxTag = "") :
    a.Encode rt now log pfx val tags = (log ++ [[]], a.Writer.result log []) ∧
    a.EncodeWithoutTypes rt now log pfx val tags = (log ++ [[]], a.Writer.result log []) := by
  unfold Encoder.Encode Encoder.EncodeWithoutTypes Encoder.encodeGeneric
  rw [recordFields_untagged rt val [] false h, recordFields_untagged rt val [] true h]
  simp only [formatLineProtocol_nil]
  exact ⟨rfl, rfl⟩

theorem encode_without_tagged_fields_witness :
    (NewEncoderWithHostname ⟨fun _ _ => none⟩ "h").Encode ⟨fun _ => true, fun _ _ => "0"⟩ 7 []
        "mytool" [⟨"", .integer .uint64 1⟩, ⟨"", .integer .int64 (-3)⟩, ⟨"", .other⟩]
        [("foo", "bar")] = ([[]], none) ∧
    (NewEncoderWithHostname ⟨fun _ _ => none⟩ "h").EncodeWithoutTypes
        ⟨fun _ => true, fun _ _ => "0"⟩ 7 []
        "mytool" [⟨"", .integer .uint64 1⟩, ⟨"", .integer .int64 (-3)⟩, ⟨"", .other⟩]
        [("foo", "bar")] = ([[]], none) :=
  encode_without_tagged_fields (NewEncoderWithHostname ⟨fun _ _ => none⟩ "h")
    ⟨fun _ => true, fun _ _ => "0"⟩ 7 [] "mytool"
    [⟨"", .integer .uint64 1⟩, ⟨"", .integer .int64 (-3)⟩, ⟨"", .other⟩] [("foo", "bar")]
    (by decide)

/-- Claim C3: in the line for a tag mapping and a non-empty field mapping, the tag keys
appear in strictly ascending byte-wise order of the raw keys, each key of the
mapping once, and so do the field keys. -/
theorem formatLineProtocol_key_order (a : Encoder) (now : Int) (pfx : String)
    (tags fieldSet : GoMap) (ht : MapOK tags) (hf : MapOK fieldSet) (hne : fieldSet ≠ []) :
    ∃ tk fk : List String,
      tk.Perm (mapKeys tags) ∧ Ascending tk ∧ fk.Perm (mapKeys fieldSet) ∧ Ascending fk ∧
      a.formatLineProtocol now pfx tags fieldSet =
        pfx ++ ",host=" ++ a.host ++
          String.join (tk.map fun k =>
            "," ++ escapeSpecialChars k ++ "=" ++ escapeSpecialChars (mapGet tags k)) ++ " " ++
          ",".intercalate (fk.map fun k => escapeSpecialChars k ++ "=" ++ mapGet fieldSet k) ++
          " " ++ decimal (timestamp now) ++ "\n" :=
  ⟨sortStrings (mapKeys tags), sortStrings (mapKeys fieldSet), sortStrings_perm _,
    sortStrings_ascending _ ht, sortStrings_perm _, sortStrings_ascending _ hf,
    formatLineProtocol_unfold a now pfx tags fieldSet hne⟩

theorem formatLineProtocol_key_order_witness :
    ∃ tk fk : List String,
      tk.Perm (mapKeys [("foo", "bar"), ("baaz gogo", "gu,gu")]) ∧ Ascending tk ∧
      fk.Perm (mapKeys [("v", "1i"), ("b", "true")]) ∧ Ascending fk ∧
      (NewEncoderWithHostname ⟨fun _ _ => none⟩ "h").formatLineProtocol 7 "m"
          [("foo", "bar"), ("baaz gogo", "gu,gu")] [("v", "1i"), ("b", "true")] =
        "m" ++ ",host=" ++ "h" ++
          String.join (tk.map fun k =>
            "," ++ escapeSpecialChars k ++ "=" ++
              escapeSpecialChars (mapGet [("foo", "bar"), ("baaz gogo", "gu,gu")] k)) ++ " " ++
          ",".intercalate (fk.map fun k =>
            escapeSpecialChars k ++ "=" ++ mapGet [("v", "1i"), ("b", "true")] k) ++
          " " ++ decimal (timestamp 7) ++ "\n" :=
  formatLineProtocol_key_order _ 7 "m" [("foo", "bar"), ("baaz gogo", "gu,gu")]
    [("v", "1i"), ("b", "true")] (by unfold MapOK; decide) (by unfold MapOK; decide) (by decide)

theorem mem_mapKeys_mapSet (m : GoMap) (k v k' : String) :
    k' ∈ mapKeys (mapSet m k v) ↔ k' = k ∨ k' ∈ mapKeys m := by
  induction m with
  | nil => simp [mapSet, mapKeys]
  | cons e rest ih =>
    obtain ⟨k0, v0⟩ := e
    simp only [mapSet]
    by_cases h : k0 = k
    · subst h
      simp [mapKeys]
    · rw [if_neg h]
      simp only [mapKeys, List.map_cons, List.mem_cons] at ih ⊢
      rw [ih]
      tauto

theorem mapOK_mapSet (m : GoMap) (k v : String) (h : MapOK m) : MapOK (mapSet m k v) := by
  induction m with
  | nil => simp [mapSet, MapOK, mapKeys]
  | cons e rest ih =>
    obtain ⟨k0, v0⟩ := e
    have h' : k0 ∉ mapKeys rest ∧ MapOK rest := by
      simpa [MapOK, mapKeys] using h
    simp only [mapSet]
    by_cases hk : k0 = k
    · subst hk
      rw [if_pos rfl]
      simpa [MapOK, mapKeys] using h
    · rw [if_neg hk]
      have h2 : k0 ∉ mapKeys (mapSet rest k v) := by
        rw [mem_mapKeys_mapSet]
        intro hc
        rcases hc with hc | hc
        · exact hk hc
        · exact h'.1 hc
      have h3 := ih h'.2
      show (mapKeys ((k0, v0) :: mapSet rest k v)).Nodup
      simp only [mapKeys, List.map_cons, List.nodup_cons]
      exact ⟨h2, h3⟩

theorem mapGet_mapSet (m : GoMap) (k v k' : String) :
    mapGet (mapSet m k v) k' = if k' = k then v else mapGet m k' := by
  induction m with
  | nil =>
    simp only [mapSet, mapGet]
    by_cases h : k' = k
    · simp [h]
    · have h' : ¬ k = k' := fun e => h e.symm
      simp [h, h']
  | cons e rest ih =>
    obtain ⟨k0, v0⟩ := e
    simp only [mapSet]
    by_cases hk : k0 = k
    · subst hk
      rw [if_pos rfl]
      simp only [mapGet]
      by_cases h : k' = k0
      · simp [h]
      · have h' : ¬ k0 = k' := fun e => h e.symm
        simp [h, h']
    · rw [if_neg hk]
      simp only [mapGet, ih]
      by_cases h : k0 = k'
      · have : ¬ k' = k := by rw [← h]; exact hk
        simp [h, this]
      · simp [h]

theorem recordFields_filter (rt : Runtime) (val : List StructField) (fieldSet : GoMap)
    (m : Bool) :
    recordFields rt val fieldSet m =
      recordFields rt (val.filter fun f => decide (f.influxTag ≠ "")) fieldSet m := by
  induction val generalizing fieldSet with
  | nil => rfl
  | cons f rest ih =>
    by_cases h : f.influxTag = ""
    · rw [List.filter_cons_of_neg (by simpa using h)]
      simp only [recordFields]
      rw [if_pos h]
      exact ih fieldSet
    · rw [List.filter_cons_of_pos (by simpa using h)]
      simp only [recordFields]
      rw [if_neg h, if_neg h]
      cases toInfluxRepr rt f.influxTag f.value m with
      | error e => rfl
      | ok r => exact ih _

theorem recordFields_ok (rt : Runtime) (val : List StructField) (m : Bool) :
    ∀ fs0 fs : GoMap, MapOK fs0 → recordFields rt val fs0 m = .ok fs →
      MapOK fs ∧
      (∀ k, k ∈ mapKeys fs ↔ k ∈ mapKeys fs0 ∨ (k ≠ "" ∧ ∃ f ∈ val, f.influxTag = k)) ∧
      (∀ k, (∀ f ∈ val, f.influxTag ≠ k) → mapGet fs k = mapGet fs0 k) ∧
      (∀ pre f post, val = pre ++ f :: post → f.influxTag ≠ "" →
        (∀ g ∈ post, g.influxTag ≠ f.influxTag) →
        toInfluxRepr rt f.influxTag f.value m = .ok (mapGet fs f.influxTag)) := by
  induction val with
  | nil =>
    intro fs0 fs h0 h
    simp only [recordFields, Except.ok.injEq] at h
    subst h
    refine ⟨h0, by simp, fun _ _ => rfl, ?_⟩
    intro pre f post hv
    cases pre <;> simp at hv
  | cons f0 rest ih =>
    intro fs0 fs h0 h
    simp only [recordFields] at h
    by_cases ht : f0.influxTag = ""
    · rw [if_pos ht] at h
      obtain ⟨i1, i2, i3, i4⟩ := ih fs0 fs h0 h
      refine ⟨i1, ?_, ?_, ?_⟩
      · intro k
        rw [i2 k]
        constructor
        · rintro (hk | ⟨hk, g, hg, hgk⟩)
          · exact Or.inl hk
          · exact Or.inr ⟨hk, g, List.mem_cons_of_mem _ hg, hgk⟩
        · rintro (hk | ⟨hk, g, hg, hgk⟩)
          · exact Or.inl hk
          · rcases List.mem_cons.mp hg with e | e
            · subst e
              rw [ht] at hgk
              exact absurd hgk.symm hk
            · exact Or.inr ⟨hk, g, e, hgk⟩
      · intro k hk
        exact i3 k (fun g hg => hk g (List.mem_cons_of_mem _ hg))
      · intro pre f post hv hf hpost
        cases pre with
        | nil =>
          simp only [List.nil_append, List.cons.injEq] at hv
          rw [hv.1] at ht
          exact absurd ht hf
        | cons p pre' =>
          simp only [List.cons_append, List.cons.injEq] at hv
          exact i4 pre' f post hv.2 hf hpost
    · rw [if_neg ht] at h
      cases hr : toInfluxRepr rt f0.influxTag f0.value m with
      | error e => rw [hr] at h; cases h
      | ok r =>
        rw [hr] at h
        simp only at h
        obtain ⟨i1, i2, i3, i4⟩ := ih _ fs (mapOK_mapSet fs0 f0.influxTag r h0) h
        refine ⟨i1, ?_, ?_, ?_⟩
        · intro k
          rw [i2 k, mem_mapKeys_mapSet]
          constructor
          · rintro ((hk | hk) | ⟨hk, g, hg, hgk⟩)
            · exact Or.inr ⟨by rw [hk]; exact ht, f0, List.mem_cons_self _ _, hk.symm⟩
            · exact Or.inl hk
            · exact Or.inr ⟨hk, g, List.mem_cons_of_mem _ hg, hgk⟩
          · rintro (hk | ⟨hk, g, hg, hgk⟩)
            · exact Or.inl (Or.inr hk)
            · rcases List.mem_cons.mp hg with e | e
              · subst e
                exact Or.inl (Or.inl hgk.symm)
              · exact Or.inr ⟨hk, g, e, hgk⟩
        · intro k hk
          rw [i3 k (fun g hg => hk g (List.mem_cons_of_mem _ hg)), mapGet_mapSet]
          have : ¬ k = f0.influxTag := fun e => hk f0 (List.mem_cons_self _ _) e.symm
          rw [if_neg this]
        · intro pre f post hv hf hpost
          cases pre with
          | nil =>
            simp only [List.nil_append, List.cons.injEq] at hv
            obtain ⟨e1, e2⟩ := hv
            subst e1 e2
            rw [i3 _ hpost, mapGet_mapSet, if_pos rfl]
            exact hr
          | cons p pre' =>
            simp only [List.cons_append, List.cons.injEq] at hv
            exact i4 pre' f post hv.2 hf hpost

theorem recordFields_ok_iff (rt : Runtime) (val : List StructField) (m : Bool) :
    ∀ fs0 : GoMap, (∃ fs, recordFields rt val fs0 m = .ok fs) ↔
      ∀ f ∈ val, f.influxTag ≠ "" → ∃ r, toInfluxRepr rt f.influxTag f.value m = .ok r := by
  induction val with
  | nil => intro fs0; simp [recordFields]
  | cons f rest ih =>
    intro fs0
    simp only [recordFields, List.mem_cons, forall_eq_or_imp]
    by_cases ht : f.influxTag = ""
    · rw [if_pos ht, ih fs0]
      constructor
      · intro h
        exact ⟨fun hne => absurd ht hne, h⟩
      · intro h
        exact h.2
    · rw [if_neg ht]
      cases hr : toInfluxRepr rt f.influxTag f.value m with
      | error e =>
        constructor
        · rintro ⟨fs, hfs⟩
          cases hfs
        · intro h
          obtain ⟨r, hr2⟩ := h.1 ht
          cases hr2
      | ok r =>
        simp only
        rw [ih]
        constructor
        · intro h
          exact ⟨fun _ => ⟨r, rfl⟩, h⟩
        · intro h
          exact h.2

/-- Claim C5: `recordFields` ignores the fields without a wire tag: its result, success
or failure, is that for the tagged fields alone, so it is the same for any
record with the same tagged fields, whatever the untagged ones hold; when all
tagged fields convert it returns a mapping, and the keys of the mapping returned
from the empty one are exactly the non-empty wire tags, each mapped to the
representation of the (last) field declaring it. -/
theorem recordFields_skips_untagged (rt : Runtime) (val : List StructField)
    (fieldSet : GoMap) (m : Bool) :
    recordFields rt val fieldSet m =
        recordFields rt (val.filter fun f => decide (f.influxTag ≠ "")) fieldSet m ∧
    (∀ val2 : List StructField,
      (val2.filter fun f => decide (f.influxTag ≠ "")) =
        (val.filter fun f => decide (f.influxTag ≠ "")) →
      recordFields rt val2 fieldSet m = recordFields rt val fieldSet m) ∧
    ((∀ f ∈ val, f.influxTag ≠ "" → ∃ r, toInfluxRepr rt f.influxTag f.value m = .ok r) →
      ∃ fs : GoMap, recordFields rt val [] m = .ok fs ∧
        MapOK fs ∧
        (∀ k, k ∈ mapKeys fs ↔ (k ≠ "" ∧ ∃ f ∈ val, f.influxTag = k)) ∧
        (∀ pre f post, val = pre ++ f :: post → f.influxTag ≠ "" →
          (∀ g ∈ post, g.influxTag ≠ f.influxTag) →
          toInfluxRepr rt f.influxTag f.value m = .ok (mapGet fs f.influxTag))) ∧
    (∀ fs : GoMap, recordFields rt val [] m = .ok fs →
      MapOK fs ∧
      (∀ k, k ∈ mapKeys fs ↔ (k ≠ "" ∧ ∃ f ∈ val, f.influxTag = k)) ∧
      (∀ pre f post, val = pre ++ f :: post → f.influxTag ≠ "" →
        (∀ g ∈ post, g.influxTag ≠ f.influxTag) →
        toInfluxRepr rt f.influxTag f.value m = .ok (mapGet fs f.influxTag))) := by
  have hok : ∀ fs : GoMap, recordFields rt val [] m = .ok fs →
      MapOK fs ∧
      (∀ k, k ∈ mapKeys fs ↔ (k ≠ "" ∧ ∃ f ∈ val, f.influxTag = k)) ∧
      (∀ pre f post, val = pre ++ f :: post → f.influxTag ≠ "" →
        (∀ g ∈ post, g.influxTag ≠ f.influxTag) →
        toInfluxRepr rt f.influxTag f.value m = .ok (mapGet fs f.influxTag)) := by
    intro fs h
    obtain ⟨i1, i2, _, i4⟩ := recordFields_ok rt val m [] fs (by simp [MapOK, mapKeys]) h
    refine ⟨i1, ?_, i4⟩
    intro k
    rw [i2 k]
    simp [mapKeys]
  refine ⟨recordFields_filter rt val fieldSet m, ?_, ?_, hok⟩
  · intro val2 h
    rw [recordFields_filter rt val2, h, ← recordFields_filter rt val]
  · intro hall
    obtain ⟨fs, hfs⟩ := (recordFields_ok_iff rt val m []).mpr hall
    exact ⟨fs, hfs, hok fs hfs⟩

theorem recordFields_error (rt : Runtime) (m : Bool) (pre post : List StructField)
    (f : StructField) (err : String) (fs0 : GoMap)
    (hpre : ∀ g ∈ pre, g.influxTag ≠ "" → ∃ r, toInfluxRepr rt g.influxTag g.value m = .ok r)
    (hf : f.influxTag ≠ "") (hfail : toInfluxRepr rt f.influxTag f.value m = .error err) :
    recordFields rt (pre ++ f :: post) fs0 m = .error err := by
  induction pre generalizing fs0 with
  | nil =>
    simp only [List.nil_append, recordFields]
    rw [if_neg hf, hfail]
  | cons g gs ih =>
    simp only [List.cons_append, recordFields]
    by_cases hg : g.influxTag = ""
    · rw [if_pos hg]
      exact ih _ (fun x hx => hpre x (List.mem_cons_of_mem _ hx))
    · rw [if_neg hg]
      obtain ⟨r, hr⟩ := hpre g (List.mem_cons_self _ _) hg
      rw [hr]
      exact ih _ (fun x hx => hpre x (List.mem_cons_of_mem _ hx))

/-- Claim C4: when a tagged field fails to convert and all tagged fields declared
before it convert, `Encode` and `EncodeWithoutTypes` return the error of that
field and the sink receives no write: its log is unchanged. -/
theorem encode_conversion_error (a : Encoder) (rt : Runtime) (now : Int)
    (log : List (List Nat)) (pfx : String) (tags : GoMap) (pre post : List StructField)
    (f : StructField) (err : String) (hf : f.influxTag ≠ "") :
    ((∀ g ∈ pre, g.influxTag ≠ "" →
        ∃ r, toInfluxRepr rt g.influxTag g.value false = .ok r) →
      toInfluxRepr rt f.influxTag f.value false = .error err →
      a.Encode rt now log pfx (pre ++ f :: post) tags = (log, some err)) ∧
    ((∀ g ∈ pre, g.influxTag ≠ "" →
        ∃ r, toInfluxRepr rt g.influxTag g.value true = .ok r) →
      toInfluxRepr rt f.influxTag f.value true = .error err →
      a.EncodeWithoutTypes rt now log pfx (pre ++ f :: post) tags = (log, some err)) := by
  constructor
  · intro hpre hfail
    unfold Encoder.Encode Encoder.encodeGeneric
    rw [recordFields_error rt false pre post f err [] hpre hf hfail]
  · intro hpre hfail
    unfold Encoder.EncodeWithoutTypes Encoder.encodeGeneric
    rw [recordFields_error rt true pre post f err [] hpre hf hfail]

theorem encode_conversion_error_witness :
    (NewEncoderWithHostname ⟨fun _ _ => none⟩ "h").Encode ⟨fun _ => true, fun _ _ => "0"⟩ 7 []
        "mytool"
        ([⟨"testval", .integer .uint64 1⟩, ⟨"testvalue", .integer .uint64 2⟩,
          ⟨"testvalue2", .integer .int64 (-3)⟩] ++ [⟨"testinval", .other⟩]) []
      = ([], some "testinval: unsupported type for Influx Line Protocol") :=
  (encode_conversion_error (NewEncoderWithHostname ⟨fun _ _ => none⟩ "h")
    ⟨fun _ => true, fun _ _ => "0"⟩ 7 [] "mytool" []
    [⟨"testval", .integer .uint64 1⟩, ⟨"testvalue", .integer .uint64 2⟩,
      ⟨"testvalue2", .integer .int64 (-3)⟩] [] ⟨"testinval", .other⟩
    "testinval: unsupported type for Influx Line Protocol" (by decide)).1
    (by
      intro g hg _
      simp only [List.mem_cons, List.mem_singleton, List.not_mem_nil, or_false] at hg
      rcases hg with e | e | e <;> subst e <;> exact ⟨_, rfl⟩)
    rfl

theorem decimalLoop_digits (fuel : Nat) :
    ∀ (u : Nat) (buf : List Char), 0 < fuel → u < 10 ^ fuel →
      decimalLoop fuel u buf = (digitsOf u).map (fun d => Char.ofNat (48 + d)) ++ buf := by
  induction fuel with
  | zero => intro u buf h; exact absurd h (lt_irrefl 0)
  | succ n ih =>
    intro u buf _ hu
    simp only [decimalLoop]
    by_cases h10 : 10 ≤ u
    · have hn : 0 < n := by
        rcases Nat.eq_zero_or_pos n with h0 | h0
        · subst h0; simp at hu; omega
        · exact h0
      have hu' : u / 10 < 10 ^ n := by
        rw [pow_succ] at hu
        omega
      rw [if_pos h10, ih (u / 10) _ hn hu']
      have hd : u - u / 10 * 10 = u % 10 := by omega
      have h0 : ¬ u = 0 := by omega
      have h1 : ¬ u / 10 = 0 := by omega
      have hlt : u % 10 < 10 := Nat.mod_lt _ (by decide)
      have hdig : Nat.digits 10 u = (u % 10) :: Nat.digits 10 (u / 10) :=
        Nat.digits_def' (by decide) (by omega)
      simp only [digitsOf, if_neg h0, if_neg h1, hdig, List.reverse_cons, List.map_append,
        List.map_cons, List.map_nil, List.append_assoc, List.singleton_append, hd]
      simp only [lowerhex, if_pos hlt]
    · rw [if_neg h10]
      have hlt : u < 10 := by omega
      by_cases h0 : u = 0
      · subst h0
        rfl
      · have hdig : Nat.digits 10 u = [u] := Nat.digits_of_lt 10 u h0 hlt
        simp only [digitsOf, if_neg h0, hdig, List.reverse_cons, List.reverse_nil,
          List.nil_append, List.map_cons, List.map_nil, List.singleton_append]
        simp only [lowerhex, if_pos hlt]

theorem digitsOf_spec (u : Nat) :
    digitsOf u ≠ [] ∧ (∀ d ∈ digitsOf u, d < 10) ∧
    ((digitsOf u).head? = some 0 → digitsOf u = [0]) ∧
    Nat.ofDigits 10 (digitsOf u).reverse = u := by
  unfold digitsOf
  by_cases h0 : u = 0
  · subst h0
    simp
  · rw [if_neg h0]
    have hne : Nat.digits 10 u ≠ [] := by
      intro h
      exact h0 (Nat.digits_eq_nil_iff_eq_zero.mp h)
    refine ⟨by simpa using hne, ?_, ?_, ?_⟩
    · intro d hd
      exact Nat.digits_lt_base (by decide) (List.mem_reverse.mp hd)
    · intro hh
      exfalso
      have hl := Nat.getLast_digit_ne_zero 10 h0
      rw [List.head?_reverse] at hh
      rw [List.getLast?_eq_getLast _ hne] at hh
      exact hl (Option.some.inj hh)
    · rw [List.reverse_reverse]
      exact Nat.ofDigits_digits 10 u

theorem fmtInteger_value (n : Int) (sg : Bool)
    (h : if sg = true then -(2 ^ 63) ≤ n ∧ n < 2 ^ 63 else 0 ≤ n ∧ n < 2 ^ 64) :
    fmtInteger n sg =
      ⟨(if n < 0 then ['-'] else []) ++
        (digitsOf n.natAbs).map (fun d => Char.ofNat (48 + d))⟩ := by
  have hpow : (2:Nat) ^ 64 < 10 ^ 20 := by norm_num
  unfold fmtInteger
  cases sg with
  | false =>
    simp only [Bool.false_eq_true, if_false] at h
    have hn : ¬ n < 0 := by omega
    simp only [Bool.false_and, Bool.false_eq_true, if_false, if_neg hn, List.nil_append]
    have hu : (n % 2 ^ 64).toNat = n.natAbs := by omega
    rw [hu, decimalLoop_digits 20 _ [] (by decide) (by omega), List.append_nil]
  | true =>
    simp only [if_true] at h
    by_cases hn : n < 0
    · have hneg : (2:Nat) ^ 63 ≤ (n % 2 ^ 64).toNat := by omega
      have hu : (2 ^ 64 - (n % 2 ^ 64).toNat) % 2 ^ 64 = n.natAbs := by omega
      simp only [Bool.true_and, decide_eq_true_eq, if_pos hneg, if_pos hn, hu]
      rw [decimalLoop_digits 20 _ [] (by decide) (by omega), List.append_nil]
      rfl
    · have hu : (n % 2 ^ 64).toNat = n.natAbs := by omega
      have hneg : ¬ (2:Nat) ^ 63 ≤ n.natAbs := by omega
      simp only [Bool.true_and, decide_eq_true_eq, hu, if_neg hneg, if_neg hn,
        List.nil_append]
      rw [decimalLoop_digits 20 _ [] (by decide) (by omega), List.append_nil]

theorem inRange_fmt (k : IntKind) (n : Int) (h : k.inRange n) :
    if k.signed = true then -(2 ^ 63) ≤ n ∧ n < 2 ^ 63 else 0 ≤ n ∧ n < 2 ^ 64 := by
  unfold IntKind.inRange at h
  cases k <;> simp only [IntKind.signed, IntKind.bits, if_true, Bool.false_eq_true, if_false] at h ⊢ <;>
    norm_num at h ⊢ <;> omega

/-- Claim C8: for an integer `n` of any built-in type, `toInfluxRepr` succeeds and
returns the decimal numeral of `n`: a minus sign exactly when `n` is negative,
then the digits of the absolute value without leading zeros and without a plus
sign, followed by `i` in default mode and by nothing in no-static-types mode. -/
theorem toInfluxRepr_integer (rt : Runtime) (tag : String) (k : IntKind) (n : Int)
    (h : k.inRange n) :
    ∃ ds : List Nat, ds ≠ [] ∧ (∀ d ∈ ds, d < 10) ∧ (ds.head? = some 0 → ds = [0]) ∧
      Nat.ofDigits 10 ds.reverse = n.natAbs ∧
      toInfluxRepr rt tag (.integer k n) false =
        .ok ⟨(if n < 0 then ['-'] else []) ++ ds.map (fun d => Char.ofNat (48 + d)) ++ ['i']⟩ ∧
      toInfluxRepr rt tag (.integer k n) true =
        .ok ⟨(if n < 0 then ['-'] else []) ++ ds.map (fun d => Char.ofNat (48 + d))⟩ := by
  obtain ⟨h1, h2, h3, h4⟩ := digitsOf_spec n.natAbs
  refine ⟨digitsOf n.natAbs, h1, h2, h3, h4, ?_, ?_⟩
  · simp only [toInfluxRepr, Bool.false_eq_true, if_false]
    rw [fmtInteger_value n k.signed (inRange_fmt k n h)]
    rfl
  · simp only [toInfluxRepr, if_true]
    rw [fmtInteger_value n k.signed (inRange_fmt k n h)]

theorem toInfluxRepr_integer_witness :
    ∃ ds : List Nat, ds ≠ [] ∧ (∀ d ∈ ds, d < 10) ∧ (ds.head? = some 0 → ds = [0]) ∧
      Nat.ofDigits 10 ds.reverse = (-3 : Int).natAbs ∧
      toInfluxRepr ⟨fun _ => true, fun _ _ => "0"⟩ "testvalue2" (.integer .int64 (-3)) false =
        .ok ⟨(if (-3 : Int) < 0 then ['-'] else []) ++
          ds.map (fun d => Char.ofNat (48 + d)) ++ ['i']⟩ ∧
      toInfluxRepr ⟨fun _ => true, fun _ _ => "0"⟩ "testvalue2" (.integer .int64 (-3)) true =
        .ok ⟨(if (-3 : Int) < 0 then ['-'] else []) ++ ds.map (fun d => Char.ofNat (48 + d))⟩ :=
  toInfluxRepr_integer ⟨fun _ => true, fun _ _ => "0"⟩ "testvalue2" .int64 (-3)
    (by unfold IntKind.inRange; decide)

theorem utf8Bytes_length_pos (c : Char) : 1 ≤ (utf8Bytes c).length := by
  unfold utf8Bytes
  simp only []
  split_ifs <;> simp

theorem utf8Bytes_ascii (c : Char) (h : c.toNat < 128) : (utf8Bytes c).length = 1 := by
  unfold utf8Bytes
  simp only []
  rw [if_pos h]
  rfl

theorem flatMap_utf8_length_ge (l : List Char) : l.length ≤ (l.flatMap utf8Bytes).length := by
  induction l with
  | nil => simp
  | cons c cs ih =>
    simp only [List.flatMap_cons, List.length_append, List.length_cons]
    have := utf8Bytes_length_pos c
    omega

theorem runeCount_le_len (s : String) : runeCount s ≤ len s :=
  flatMap_utf8_length_ge s.data

theorem len_ascii (s : String) (h : ∀ c ∈ s.data, c.toNat < 128) : len s = runeCount s := by
  obtain ⟨l⟩ := s
  unfold len runeCount toBytes
  simp only at h ⊢
  induction l with
  | nil => rfl
  | cons c cs ih =>
    simp only [List.flatMap_cons, List.length_append, List.length_cons]
    rw [utf8Bytes_ascii c (h c (List.mem_cons_self _ _)),
      ih (fun d hd => h d (List.mem_cons_of_mem _ hd))]
    omega

theorem len_replicate (n : Nat) (c : Char) :
    len ⟨List.replicate n c⟩ = n * (utf8Bytes c).length := by
  unfold len toBytes
  simp only
  induction n with
  | zero => simp
  | succ k ih =>
    simp only [List.replicate_succ, List.flatMap_cons, List.length_append, ih]
    ring

/-- Claim C9 as stated fails: a string of 32,001 two-byte characters has at most
64,000 characters and is rejected, because its length in bytes is 64,002. -/
theorem toInfluxRepr_string_characters_counterexample :
    runeCount ⟨List.replicate 32001 'é'⟩ ≤ 64000 ∧
    toInfluxRepr ⟨fun _ => true, fun _ _ => "0"⟩ "testval"
        (.string ⟨List.replicate 32001 'é'⟩) false = .error (errTooLong "testval" 64002) := by
  have hl : len ⟨List.replicate 32001 'é'⟩ = 64002 := by
    rw [len_replicate]
    have : (utf8Bytes 'é').length = 2 := by decide
    rw [this]
  constructor
  · show (List.replicate 32001 'é').length ≤ 64000
    rw [List.length_replicate]
    norm_num
  · simp only [toInfluxRepr, hl]
    rw [if_pos (by norm_num)]

/-- Claim C9, amended: in both modes `toInfluxRepr` accepts a string exactly when its
UTF-8 encoding has at most 64,000 bytes; hence every string of more than 64,000
characters is rejected, and a string of single-byte characters is accepted when
it has at most 64,000 of them. -/
theorem toInfluxRepr_string_limit (rt : Runtime) (tag : String) (s : String) (m : Bool) :
    (len s ≤ 64000 → toInfluxRepr rt tag (.string s) m = .ok (fmtQuote rt s)) ∧
    (64000 < len s → toInfluxRepr rt tag (.string s) m = .error (errTooLong tag (len s))) ∧
    (64000 < runeCount s →
      toInfluxRepr rt tag (.string s) m = .error (errTooLong tag (len s))) ∧
    ((∀ c ∈ s.data, c.toNat < 128) → runeCount s ≤ 64000 →
      toInfluxRepr rt tag (.string s) m = .ok (fmtQuote rt s)) := by
  have hok : len s ≤ 64000 → toInfluxRepr rt tag (.string s) m = .ok (fmtQuote rt s) := by
    intro h
    have : ¬ len s > 64000 := by omega
    simp only [toInfluxRepr, if_neg this]
  have herr : 64000 < len s →
      toInfluxRepr rt tag (.string s) m = .error (errTooLong tag (len s)) := by
    intro h
    simp only [toInfluxRepr, gt_iff_lt, if_pos h]
  refine ⟨hok, herr, ?_, ?_⟩
  · intro h
    exact herr (lt_of_lt_of_le h (runeCount_le_len s))
  · intro ha h
    apply hok
    rw [len_ascii s ha]
    exact h

theorem hexValue_lowerhex (d : Nat) (h : d < 16) : hexValue (lowerhex d) = d := by
  interval_cases d <;> rfl

theorem lowerhex_plain (d : Nat) (h : d < 16) : lowerhex d ≠ '\\' ∧ lowerhex d ≠ '"' := by
  interval_cases d <;> decide

theorem char_toNat_lt (c : Char) : c.toNat < 1114112 := by
  have h := c.valid
  unfold UInt32.isValidChar Nat.isValidChar at h
  unfold Char.toNat
  omega

theorem char_eq_of_toNat (c : Char) (n : Nat) (h : c.toNat = n) : c = Char.ofNat n := by
  rw [← h, Char.ofNat_toNat]

theorem appendEscapedRune_cases (rt : Runtime) (c : Char) :
    (c = '"' ∧ appendEscapedRune rt c = ['\\', '"']) ∨
    (c = '\\' ∧ appendEscapedRune rt c = ['\\', '\\']) ∨
    (c ≠ '"' ∧ c ≠ '\\' ∧ appendEscapedRune rt c = [c]) ∨
    (∃ e : Char × Nat,
      e ∈ [('a', 7), ('b', 8), ('f', 12), ('n', 10), ('r', 13), ('t', 9), ('v', 11)] ∧
      c = Char.ofNat e.2 ∧ appendEscapedRune rt c = ['\\', e.1]) ∨
    (c.toNat < 256 ∧ appendEscapedRune rt c =
      ['\\', 'x', lowerhex (c.toNat / 16 % 16), lowerhex (c.toNat % 16)]) ∨
    (c.toNat < 65536 ∧ appendEscapedRune rt c =
      ['\\', 'u', lowerhex (c.toNat / 4096 % 16), lowerhex (c.toNat / 256 % 16),
        lowerhex (c.toNat / 16 % 16), lowerhex (c.toNat % 16)]) ∨
    (appendEscapedRune rt c =
      ['\\', 'U', lowerhex (c.toNat / 268435456 % 16), lowerhex (c.toNat / 16777216 % 16),
        lowerhex (c.toNat / 1048576 % 16), lowerhex (c.toNat / 65536 % 16),
        lowerhex (c.toNat / 4096 % 16), lowerhex (c.toNat / 256 % 16),
        lowerhex (c.toNat / 16 % 16), lowerhex (c.toNat % 16)]) := by
  unfold appendEscapedRune
  by_cases h1 : c = '"' ∨ c = '\\'
  · rw [if_pos h1]
    rcases h1 with e | e
    · left; exact ⟨e, by rw [e]⟩
    · right; left; exact ⟨e, by rw [e]⟩
  rw [if_neg h1]
  by_cases h2 : IsPrint rt c.toNat = true
  · rw [if_pos h2]
    right; right; left
    exact ⟨fun e => h1 (Or.inl e), fun e => h1 (Or.inr e), rfl⟩
  rw [if_neg h2]
  by_cases h3 : c.toNat = 7
  · rw [if_pos h3]
    right; right; right; left
    exact ⟨('a', 7), by simp, char_eq_of_toNat c 7 h3, rfl⟩
  rw [if_neg h3]
  by_cases h4 : c.toNat = 8
  · rw [if_pos h4]
    right; right; right; left
    exact ⟨('b', 8), by simp, char_eq_of_toNat c 8 h4, rfl⟩
  rw [if_neg h4]
  by_cases h5 : c.toNat = 12
  · rw [if_pos h5]
    right; right; right; left
    exact ⟨('f', 12), by simp, char_eq_of_toNat c 12 h5, rfl⟩
  rw [if_neg h5]
  by_cases h6 : c.toNat = 10
  · rw [if_pos h6]
    right; right; right; left
    exact ⟨('n', 10), by simp, char_eq_of_toNat c 10 h6, rfl⟩
  rw [if_neg h6]
  by_cases h7 : c.toNat = 13
  · rw [if_pos h7]
    right; right; right; left
    exact ⟨('r', 13), by simp, char_eq_of_toNat c 13 h7, rfl⟩
  rw [if_neg h7]
  by_cases h8 : c.toNat = 9
  · rw [if_pos h8]
    right; right; right; left
    exact ⟨('t', 9), by simp, char_eq_of_toNat c 9 h8, rfl⟩
  rw [if_neg h8]
  by_cases h9 : c.toNat = 11
  · rw [if_pos h9]
    right; right; right; left
    exact ⟨('v', 11), by simp, char_eq_of_toNat c 11 h9, rfl⟩
  rw [if_neg h9]
  by_cases h10 : c.toNat < 32 ∨ c.toNat = 127
  · rw [if_pos h10]
    right; right; right; right; left
    exact ⟨by omega, rfl⟩
  rw [if_neg h10]
  by_cases h11 : c.toNat < 65536
  · rw [if_pos h11]
    right; right; right; right; right; left
    exact ⟨h11, rfl⟩
  rw [if_neg h11]
  right; right; right; right; right; right
  rfl

theorem unquoteFrom_hex (k v : Nat) (d : Nat) (hd : d < 16) (rest : List Char) :
    unquoteFrom (.hex k v) (lowerhex d :: rest) =
      if k ≤ 1 then Char.ofNat (v * 16 + d) :: unquoteFrom .text rest
      else unquoteFrom (.hex (k - 1) (v * 16 + d)) rest := by
  simp only [unquoteFrom, hexValue_lowerhex d hd]

theorem unquoteFrom_token (rt : Runtime) (c : Char) (rest : List Char) :
    unquoteFrom .text (appendEscapedRune rt c ++ rest) = c :: unquoteFrom .text rest := by
  have hlt := char_toNat_lt c
  have h16 : ∀ n : Nat, n % 16 < 16 := fun n => Nat.mod_lt _ (by decide)
  rcases appendEscapedRune_cases rt c with h | h | h | h | h | h | h
  · rw [h.2, h.1]; rfl
  · rw [h.2, h.1]; rfl
  · rw [h.2.2]
    show unquoteFrom .text (c :: rest) = c :: unquoteFrom .text rest
    simp only [unquoteFrom, if_neg h.2.1]
  · obtain ⟨e, he, hc, ht⟩ := h
    rw [ht, hc]
    simp only [List.mem_cons, List.mem_singleton, List.not_mem_nil, or_false] at he
    rcases he with e1 | e1 | e1 | e1 | e1 | e1 | e1 <;> subst e1 <;> rfl
  · rw [h.2]
    have e : (0 * 16 + c.toNat / 16 % 16) * 16 + c.toNat % 16 = c.toNat := by omega
    have s1 : unquoteFrom .text ('\\' :: 'x' :: lowerhex (c.toNat / 16 % 16) ::
        lowerhex (c.toNat % 16) :: rest) = unquoteFrom (.hex 2 0)
          (lowerhex (c.toNat / 16 % 16) :: lowerhex (c.toNat % 16) :: rest) := rfl
    simp only [List.cons_append, List.nil_append]
    rw [s1, unquoteFrom_hex _ _ _ (h16 _), if_neg (by decide), unquoteFrom_hex _ _ _ (h16 _),
      if_pos (by decide), e, Char.ofNat_toNat]
  · rw [h.2]
    have e : (((0 * 16 + c.toNat / 4096 % 16) * 16 + c.toNat / 256 % 16) * 16 +
        c.toNat / 16 % 16) * 16 + c.toNat % 16 = c.toNat := by omega
    have s1 : ∀ l, unquoteFrom .text ('\\' :: 'u' :: l) = unquoteFrom (.hex 4 0) l :=
      fun _ => rfl
    simp only [List.cons_append, List.nil_append]
    rw [s1, unquoteFrom_hex _ _ _ (h16 _), if_neg (by decide), unquoteFrom_hex _ _ _ (h16 _),
      if_neg (by decide), unquoteFrom_hex _ _ _ (h16 _), if_neg (by decide),
      unquoteFrom_hex _ _ _ (h16 _), if_pos (by decide), e, Char.ofNat_toNat]
  · rw [h]
    have e : (((((((0 * 16 + c.toNat / 268435456 % 16) * 16 + c.toNat / 16777216 % 16) * 16 +
        c.toNat / 1048576 % 16) * 16 + c.toNat / 65536 % 16) * 16 +
        c.toNat / 4096 % 16) * 16 + c.toNat / 256 % 16) * 16 +
        c.toNat / 16 % 16) * 16 + c.toNat % 16 = c.toNat := by omega
    have s1 : ∀ l, unquoteFrom .text ('\\' :: 'U' :: l) = unquoteFrom (.hex 8 0) l :=
      fun _ => rfl
    simp only [List.cons_append, List.nil_append]
    rw [s1, unquoteFrom_hex _ _ _ (h16 _), if_neg (by decide), unquoteFrom_hex _ _ _ (h16 _),
      if_neg (by decide), unquoteFrom_hex _ _ _ (h16 _), if_neg (by decide),
      unquoteFrom_hex _ _ _ (h16 _), if_neg (by decide), unquoteFrom_hex _ _ _ (h16 _),
      if_neg (by decide), unquoteFrom_hex _ _ _ (h16 _), if_neg (by decide),
      unquoteFrom_hex _ _ _ (h16 _), if_neg (by decide),
      unquoteFrom_hex _ _ _ (h16 _), if_pos (by decide), e, Char.ofNat_toNat]

theorem unquoteFrom_quoteBody (rt : Runtime) (l : List Char) :
    unquoteFrom .text (l.flatMap (appendEscapedRune rt)) = l := by
  induction l with
  | nil => rfl
  | cons c cs ih => rw [List.flatMap_cons, unquoteFrom_token, ih]

theorem backslashesBefore_plain (acc tok : List Char) (x : Char) (t : List Char)
    (h : tok.reverse = x :: t) (hx : x ≠ '\\') : backslashesBefore (acc ++ tok) = 0 := by
  unfold backslashesBefore
  rw [List.reverse_append, h, List.cons_append, List.takeWhile_cons]
  have : (x == '\\') = false := by simpa using hx
  rw [this]
  rfl

theorem backslashesBefore_backslash (acc : List Char) :
    backslashesBefore (acc ++ ['\\']) = backslashesBefore acc + 1 := by
  unfold backslashesBefore
  rw [List.reverse_append]
  rfl

theorem token_ends_plain (rt : Runtime) (c : Char) (hc : c ≠ '\\') :
    ∃ x t, (appendEscapedRune rt c).reverse = x :: t ∧ x ≠ '\\' := by
  have h16 : ∀ n : Nat, n % 16 < 16 := fun n => Nat.mod_lt _ (by decide)
  rcases appendEscapedRune_cases rt c with h | h | h | h | h | h | h
  · rw [h.2]; exact ⟨'"', _, rfl, by decide⟩
  · exact absurd h.1 hc
  · rw [h.2.2]; exact ⟨c, _, rfl, hc⟩
  · obtain ⟨e, he, _, ht⟩ := h
    rw [ht]
    refine ⟨e.1, _, rfl, ?_⟩
    simp only [List.mem_cons, List.mem_singleton, List.not_mem_nil, or_false] at he
    rcases he with e1 | e1 | e1 | e1 | e1 | e1 | e1 <;> subst e1 <;> decide
  · rw [h.2]; exact ⟨_, _, rfl, (lowerhex_plain _ (h16 _)).1⟩
  · rw [h.2]; exact ⟨_, _, rfl, (lowerhex_plain _ (h16 _)).1⟩
  · rw [h]; exact ⟨_, _, rfl, (lowerhex_plain _ (h16 _)).1⟩

theorem token_no_quote (rt : Runtime) (c : Char) (hc : c ≠ '"') :
    '"' ∉ appendEscapedRune rt c := by
  have h16 : ∀ n : Nat, n % 16 < 16 := fun n => Nat.mod_lt _ (by decide)
  have hq : ∀ n : Nat, ¬ '"' = lowerhex (n % 16) :=
    fun n e => (lowerhex_plain _ (h16 n)).2 e.symm
  rcases appendEscapedRune_cases rt c with h | h | h | h | h | h | h
  · exact absurd h.1 hc
  · rw [h.2]; decide
  · rw [h.2.2]
    simp only [List.mem_singleton]
    exact fun e => hc e.symm
  · obtain ⟨e, he, _, ht⟩ := h
    rw [ht]
    simp only [List.mem_cons, List.mem_singleton, List.not_mem_nil, or_false] at he
    rcases he with e1 | e1 | e1 | e1 | e1 | e1 | e1 <;> subst e1 <;> decide
  · rw [h.2]
    simp only [List.mem_cons, List.mem_singleton, List.not_mem_nil, or_false, hq, not_or]
    decide
  · rw [h.2]
    simp only [List.mem_cons, List.mem_singleton, List.not_mem_nil, or_false, hq, not_or]
    decide
  · rw [h]
    simp only [List.mem_cons, List.mem_singleton, List.not_mem_nil, or_false, hq, not_or]
    decide

theorem token_quote_split (rt : Runtime) (c : Char) (mid post : List Char)
    (h : appendEscapedRune rt c = mid ++ '"' :: post) : mid = ['\\'] := by
  by_cases hc : c = '"'
  · subst hc
    have e : appendEscapedRune rt '"' = ['\\', '"'] := rfl
    rw [e] at h
    match mid, h with
    | [], h => exact absurd (List.cons.inj h).1 (by decide)
    | [x], h =>
      have := (List.cons.inj h).1
      rw [← this]
    | x :: y :: rest, h =>
      have := congrArg List.length h
      simp at this
  · exfalso
    apply token_no_quote rt c hc
    rw [h]
    simp

theorem quoteBody_backslashes (rt : Runtime) (l : List Char) :
    ∀ acc : List Char, backslashesBefore acc % 2 = 0 →
      ∀ mid post : List Char, l.flatMap (appendEscapedRune rt) = mid ++ '"' :: post →
        backslashesBefore (acc ++ mid) % 2 = 1 := by
  induction l with
  | nil =>
    intro acc _ mid post h
    cases mid <;> simp at h
  | cons c cs ih =>
    intro acc hacc mid post h
    rw [List.flatMap_cons] at h
    have heven : backslashesBefore (acc ++ appendEscapedRune rt c) % 2 = 0 := by
      by_cases hc : c = '\\'
      · subst hc
        have e : appendEscapedRune rt '\\' = ['\\'] ++ ['\\'] := rfl
        rw [e, ← List.append_assoc, backslashesBefore_backslash, backslashesBefore_backslash]
        omega
      · obtain ⟨x, t, hr, hx⟩ := token_ends_plain rt c hc
        rw [backslashesBefore_plain acc _ x t hr hx]
    rcases List.append_eq_append_iff.mp h with ⟨a, h1, h2⟩ | ⟨b, h1, h2⟩
    · have := ih _ heven a post h2
      rw [h1, ← List.append_assoc]
      exact this
    · cases b with
      | nil =>
        simp only [List.nil_append, List.append_nil] at h1 h2
        have := ih _ heven [] post h2.symm
        rw [List.append_nil] at this
        rw [← h1]
        exact this
      | cons x b' =>
        simp only [List.cons_append, List.cons.injEq] at h2
        rw [← h2.1] at h1
        rw [token_quote_split rt c mid b' h1, backslashesBefore_backslash]
        omega

/-- Claim C10: for a string within the length limit `toInfluxRepr` returns a text that
begins and ends with a double quote; the text in between renders the string
character by character, a double quote as backslash-quote; every double quote
in it follows an odd number of backslashes; and the result determines the
string.  For `foobar"baz` the result is `"foobar\"baz"`. -/
theorem toInfluxRepr_string_quoted (rt : Runtime) (tag : String) (s : String) (m : Bool)
    (h : len s ≤ 64000) :
    ∃ body : List Char,
      toInfluxRepr rt tag (.string s) m = .ok ⟨'"' :: (body ++ ['"'])⟩ ∧
      body = s.data.flatMap (appendEscapedRune rt) ∧
      appendEscapedRune rt '"' = ['\\', '"'] ∧
      (∀ pre post : List Char, body = pre ++ '"' :: post → backslashesBefore pre % 2 = 1) ∧
      (∀ t : String, toInfluxRepr rt tag (.string t) m = toInfluxRepr rt tag (.string s) m →
        t = s) ∧
      toInfluxRepr rt tag (.string "foobar\"baz") m = .ok "\"foobar\\\"baz\"" := by
  have hs : toInfluxRepr rt tag (.string s) m = .ok (fmtQuote rt s) := by
    have : ¬ len s > 64000 := by omega
    simp only [toInfluxRepr, if_neg this]
  refine ⟨quoteBody rt s, hs, rfl, rfl, ?_, ?_, rfl⟩
  · intro pre post hb
    have := quoteBody_backslashes rt s.data [] rfl pre post hb
    simpa using this
  · intro t ht
    rw [hs] at ht
    by_cases hl : len t > 64000
    · simp only [toInfluxRepr, if_pos hl] at ht
      cases ht
    · simp only [toInfluxRepr, if_neg hl, Except.ok.injEq, fmtQuote] at ht
      have hd := congrArg String.data ht
      simp only [List.cons.injEq, true_and] at hd
      have hb : quoteBody rt t = quoteBody rt s := List.append_cancel_right hd
      have h1 := unquoteFrom_quoteBody rt t.data
      have h2 := unquoteFrom_quoteBody rt s.data
      unfold quoteBody at hb
      rw [hb, h2] at h1
      exact String.ext h1.symm

theorem toInfluxRepr_string_quoted_witness :
    ∃ body : List Char,
      toInfluxRepr ⟨fun _ => true, fun _ _ => "0"⟩ "testvalue3" (.string "a\"b\\") false =
        .ok ⟨'"' :: (body ++ ['"'])⟩ ∧
      body = "a\"b\\".data.flatMap (appendEscapedRune ⟨fun _ => true, fun _ _ => "0"⟩) ∧
      appendEscapedRune ⟨fun _ => true, fun _ _ => "0"⟩ '"' = ['\\', '"'] ∧
      (∀ pre post : List Char, body = pre ++ '"' :: post → backslashesBefore pre % 2 = 1) ∧
      (∀ t : String,
        toInfluxRepr ⟨fun _ => true, fun _ _ => "0"⟩ "testvalue3" (.string t) false =
          toInfluxRepr ⟨fun _ => true, fun _ _ => "0"⟩ "testvalue3" (.string "a\"b\\") false →
        t = "a\"b\\") ∧
      toInfluxRepr ⟨fun _ => true, fun _ _ => "0"⟩ "testvalue3" (.string "foobar\"baz") false =
        .ok "\"foobar\\\"baz\"" :=
  toInfluxRepr_string_quoted ⟨fun _ => true, fun _ _ => "0"⟩ "testvalue3" "a\"b\\" false
    (by decide)

/-- Claim C11 as stated fails: for the instant one nanosecond before the Unix
epoch the result is the numeral of 2^64 - 1, not the numeral of -1. -/
theorem toInfluxRepr_time_before_epoch_counterexample :
    toInfluxRepr ⟨fun _ => true, fun _ _ => "0"⟩ "testvaluetime" (.time (-1)) false =
      .ok "18446744073709551615" ∧
    toInfluxRepr ⟨fun _ => true, fun _ _ => "0"⟩ "testvaluetime" (.time (-1)) false ≠
      .ok (decimalInt (-1)) := by
  have h : toInfluxRepr ⟨fun _ => true, fun _ _ => "0"⟩ "testvaluetime" (.time (-1)) false =
      .ok "18446744073709551615" := by rfl
  refine ⟨h, ?_⟩
  rw [h]
  intro e
  exact absurd (Except.ok.inj e) (by decide)

/-- Claim C11, amended: in both modes `toInfluxRepr` succeeds on every instant
and returns, without suffix, the decimal numeral of its nanoseconds since the
epoch reduced modulo 2^64 (the conversion to `uint64`): the nanoseconds
themselves for an instant from the epoch to less than 2^64 nanoseconds after
it, the nanoseconds plus 2^64 for an instant less than 2^64 nanoseconds before
the epoch; for the zero `time.Time` (year 1) this is 11651379494838206464. -/
theorem toInfluxRepr_time (rt : Runtime) (tag : String) (t : Int) (m : Bool) :
    toInfluxRepr rt tag (.time t) m = .ok (decimal (t % 2 ^ 64).toNat) ∧
    (0 ≤ t → t < 2 ^ 64 → toInfluxRepr rt tag (.time t) m = .ok (decimalInt t)) ∧
    (t < 0 → -(2 ^ 64) ≤ t →
      toInfluxRepr rt tag (.time t) m = .ok (decimal (t + 2 ^ 64).toNat)) ∧
    toInfluxRepr rt tag (.time (-62135596800000000000)) m = .ok "11651379494838206464" := by
  have h : toInfluxRepr rt tag (.time t) m = .ok (decimal (t % 2 ^ 64).toNat) := by
    simp only [toInfluxRepr, fmtInteger_timestamp]
    rfl
  refine ⟨h, ?_, ?_, ?_⟩
  · intro h0 h1
    rw [h]
    have e : (t % 2 ^ 64).toNat = t.natAbs := by omega
    have hn : ¬ t < 0 := by omega
    rw [e]
    simp only [decimalInt, if_neg hn]
  · intro h0 h1
    rw [h]
    have e : (t % 2 ^ 64).toNat = (t + 2 ^ 64).toNat := by omega
    rw [e]
  · rfl

theorem errTooLong_ne_errUnsupported (tag : String) (n : Nat) :
    errTooLong tag n ≠ errUnsupported tag := by
  intro h
  have hd := congrArg String.data h
  simp only [errTooLong, errUnsupported, String.data_append, List.append_assoc] at hd
  have h2 := List.append_cancel_left hd
  simp only [List.cons_append, List.cons.injEq, true_and] at h2
  exact absurd h2.1 (by decide)

/-- Claim C12: for every tag name and mode, `toInfluxRepr` fails with the
unsupported-type error exactly when the value is not a string, a built-in
integer, a 32/64-bit float, a boolean or an instant; the message is the tag name
followed by `: unsupported type for Influx Line Protocol`, and then no
representation is returned. -/
theorem toInfluxRepr_unsupported (rt : Runtime) (tag : String) (v : Value) (m : Bool) :
    (toInfluxRepr rt tag v m = .error (errUnsupported tag) ↔ v.supported = false) ∧
    errUnsupported tag = tag ++ ": unsupported type for Influx Line Protocol" ∧
    (v.supported = false → ∀ r, toInfluxRepr rt tag v m ≠ .ok r) ∧
    (v.supported = true → ∀ e, toInfluxRepr rt tag v m = .error e → e ≠ errUnsupported tag) := by
  refine ⟨?_, rfl, ?_, ?_⟩
  · cases v with
    | string s =>
      simp only [toInfluxRepr, Value.supported]
      by_cases hl : len s > 64000
      · simp only [if_pos hl, Except.error.injEq, errTooLong_ne_errUnsupported]
        simp
      · simp only [if_neg hl]
        simp
    | integer k n =>
      simp only [toInfluxRepr, Value.supported]
      cases m <;> simp
    | float64 b => simp [toInfluxRepr, Value.supported]
    | float32 b => simp [toInfluxRepr, Value.supported]
    | bool b => simp [toInfluxRepr, Value.supported]
    | time t => simp [toInfluxRepr, Value.supported]
    | other => simp [toInfluxRepr, Value.supported]
  · intro hv r
    cases v <;> simp [Value.supported] at hv
    simp [toInfluxRepr]
  · intro hv e he
    cases v with
    | string s =>
      simp only [toInfluxRepr] at he
      by_cases hl : len s > 64000
      · simp only [if_pos hl, Except.error.injEq] at he
        rw [← he]
        exact errTooLong_ne_errUnsupported tag _
      · simp only [if_neg hl] at he
        cases he
    | integer k n =>
      simp only [toInfluxRepr] at he
      cases m <;> simp at he
    | float64 b => simp [toInfluxRepr] at he
    | float32 b => simp [toInfluxRepr] at he
    | bool b => simp [toInfluxRepr] at he
    | time t => simp [toInfluxRepr] at he
    | other => simp [Value.supported] at hv

theorem toInfluxRepr_mode_error (rt : Runtime) (tag : String) (v : Value) (e : String) :
    toInfluxRepr rt tag v true = .error e ↔ toInfluxRepr rt tag v false = .error e := by
  cases v <;> simp [toInfluxRepr]

theorem toInfluxRepr_mode_ok (rt : Runtime) (tag : String) (v : Value) (r : String)
    (h : toInfluxRepr rt tag v true = .ok r) :
    toInfluxRepr rt tag v false = .ok (r ++ if v.isInteger = true then "i" else "") := by
  cases v with
  | integer k n =>
    simp only [toInfluxRepr, if_true, Except.ok.injEq] at h
    simp only [toInfluxRepr, Bool.false_eq_true, if_false, Value.isInteger, if_true, h]
  | string s =>
    simp only [toInfluxRepr] at h ⊢
    by_cases hl : len s > 64000
    · rw [if_pos hl] at h; cases h
    · rw [if_neg hl] at h ⊢
      simp only [Except.ok.injEq] at h
      simp [Value.isInteger, h]
  | float64 b =>
    simp only [toInfluxRepr, Except.ok.injEq] at h
    simp [toInfluxRepr, Value.isInteger, h]
  | float32 b =>
    simp only [toInfluxRepr, Except.ok.injEq] at h
    simp [toInfluxRepr, Value.isInteger, h]
  | bool b =>
    simp only [toInfluxRepr, Except.ok.injEq] at h
    simp [toInfluxRepr, Value.isInteger, h]
  | time t =>
    simp only [toInfluxRepr, Except.ok.injEq] at h
    simp only [toInfluxRepr, Value.isInteger, h, Bool.false_eq_true, if_false,
      String.append_empty]
  | other => simp [toInfluxRepr] at h

theorem mapKeys_mapSet (m : GoMap) (k v : String) :
    mapKeys (mapSet m k v) = if k ∈ mapKeys m then mapKeys m else mapKeys m ++ [k] := by
  induction m with
  | nil => simp [mapSet, mapKeys]
  | cons e rest ih =>
    obtain ⟨k0, v0⟩ := e
    simp only [mapSet]
    by_cases h : k0 = k
    · subst h
      simp [mapKeys]
    · rw [if_neg h]
      have h' : ¬ k = k0 := fun e => h e.symm
      simp only [mapKeys, List.map_cons, List.mem_cons, h', false_or] at ih ⊢
      rw [ih]
      split_ifs <;> simp

theorem recordFields_modes (rt : Runtime) (val : List StructField) :
    ∀ fsA fsB : GoMap, mapKeys fsA = mapKeys fsB →
      (∀ e, recordFields rt val fsA true = .error e ↔ recordFields rt val fsB false = .error e) ∧
      (∀ fs1 fs0, recordFields rt val fsA true = .ok fs1 → recordFields rt val fsB false = .ok fs0 →
        mapKeys fs0 = mapKeys fs1) := by
  induction val with
  | nil =>
    intro fsA fsB hk
    simp only [recordFields, Except.ok.injEq]
    refine ⟨fun e => by simp, ?_⟩
    intro fs1 fs0 h1 h0
    rw [← h1, ← h0, hk]
  | cons f rest ih =>
    intro fsA fsB hk
    simp only [recordFields]
    by_cases ht : f.influxTag = ""
    · simp only [if_pos ht]
      exact ih fsA fsB hk
    · simp only [if_neg ht]
      cases h1 : toInfluxRepr rt f.influxTag f.value true with
      | error e1 =>
        have h0 := (toInfluxRepr_mode_error rt f.influxTag f.value e1).mp h1
        rw [h0]
        simp
      | ok r1 =>
        have h0 := toInfluxRepr_mode_ok rt f.influxTag f.value r1 h1
        rw [h0]
        simp only
        apply ih
        rw [mapKeys_mapSet, mapKeys_mapSet, hk]

theorem last_with_tag (val : List StructField) (k : String)
    (h : ∃ f ∈ val, f.influxTag = k) :
    ∃ pre g post, val = pre ++ g :: post ∧ g.influxTag = k ∧ ∀ x ∈ post, x.influxTag ≠ k := by
  induction val with
  | nil =>
    obtain ⟨f, hf, _⟩ := h
    cases hf
  | cons f rest ih =>
    by_cases hr : ∃ g ∈ rest, g.influxTag = k
    · obtain ⟨pre, g, post, h1, h2, h3⟩ := ih hr
      exact ⟨f :: pre, g, post, by rw [h1]; rfl, h2, h3⟩
    · obtain ⟨g, hg, hgk⟩ := h
      rcases List.mem_cons.mp hg with e | e
      · subst e
        refine ⟨[], g, rest, rfl, hgk, ?_⟩
        intro x hx hxk
        exact hr ⟨x, hx, hxk⟩
      · exact absurd ⟨g, e, hgk⟩ hr

/-- Claim C13 as stated fails: a sink that rejects writes of more than 15 bytes
makes `Encode` fail on a record that `EncodeWithoutTypes` encodes with success. -/
theorem encode_modes_sink_counterexample :
    ((NewEncoderWithHostname ⟨fun _ p => if p.length > 15 then some "short write" else none⟩
        "h").Encode ⟨fun _ => true, fun _ _ => "0"⟩ 7 [] "m"
        [⟨"a", .integer .int64 1⟩] []).2 = some "short write" ∧
    ((NewEncoderWithHostname ⟨fun _ p => if p.length > 15 then some "short write" else none⟩
        "h").EncodeWithoutTypes ⟨fun _ => true, fun _ _ => "0"⟩ 7 [] "m"
        [⟨"a", .integer .int64 1⟩] []).2 = none := by
  constructor <;> rfl

/-- Claim C13, amended: for every record, the conversion of the fields fails in
`EncodeWithoutTypes` exactly when it fails in `Encode`, with the same error, and
both calls then return it without writing; when it succeeds, the two field
mappings have the same keys, the default-mode value of an integer field is its
no-static-types value followed by `i`, the value of any other field is the same
in both modes, and each call writes its line, the two lines differing only in
these field values, and returns what the sink returns for that line. -/
theorem encode_modes_agree (a : Encoder) (rt : Runtime) (now : Int) (log : List (List Nat))
    (pfx : String) (val : List StructField) (tags : GoMap) :
    (∀ e, recordFields rt val [] true = .error e ↔ recordFields rt val [] false = .error e) ∧
    (∀ e, recordFields rt val [] false = .error e →
      a.Encode rt now log pfx val tags = (log, some e) ∧
      a.EncodeWithoutTypes rt now log pfx val tags = (log, some e)) ∧
    (∀ fs0 fs1 : GoMap, recordFields rt val [] false = .ok fs0 →
      recordFields rt val [] true = .ok fs1 →
      mapKeys fs0 = mapKeys fs1 ∧
      (∀ pre f post, val = pre ++ f :: post → f.influxTag ≠ "" →
        (∀ g ∈ post, g.influxTag ≠ f.influxTag) →
        mapGet fs0 f.influxTag =
          mapGet fs1 f.influxTag ++ (if f.value.isInteger = true then "i" else "")) ∧
      (∀ k ∈ mapKeys fs1, mapGet fs0 k = mapGet fs1 k ++ "i" ∨ mapGet fs0 k = mapGet fs1 k) ∧
      a.Encode rt now log pfx val tags =
        a.Writer.Write log (toBytes (a.formatLineProtocol now pfx tags fs0)) ∧
      a.EncodeWithoutTypes rt now log pfx val tags =
        a.Writer.Write log (toBytes (a.formatLineProtocol now pfx tags fs1)) ∧
      (fs1 ≠ [] → ∃ (fk : List String) (T : String),
        a.formatLineProtocol now pfx tags fs0 =
          pfx ++ ",host=" ++ a.host ++ T ++ " " ++
            ",".intercalate (fk.map fun k => escapeSpecialChars k ++ "=" ++ mapGet fs0 k) ++
            " " ++ decimal (timestamp now) ++ "\n" ∧
        a.formatLineProtocol now pfx tags fs1 =
          pfx ++ ",host=" ++ a.host ++ T ++ " " ++
            ",".intercalate (fk.map fun k => escapeSpecialChars k ++ "=" ++ mapGet fs1 k) ++
            " " ++ decimal (timestamp now) ++ "\n")) := by
  obtain ⟨herr, hkeys⟩ := recordFields_modes rt val [] [] rfl
  refine ⟨herr, ?_, ?_⟩
  · intro e he
    have he1 := (herr e).mpr he
    unfold Encoder.Encode Encoder.EncodeWithoutTypes Encoder.encodeGeneric
    rw [he, he1]
    exact ⟨rfl, rfl⟩
  · intro fs0 fs1 h0 h1
    have hk := hkeys fs1 fs0 h1 h0
    obtain ⟨_, k0, _, v0⟩ := recordFields_ok rt val false [] fs0 (by simp [MapOK, mapKeys]) h0
    obtain ⟨_, k1, _, v1⟩ := recordFields_ok rt val true [] fs1 (by simp [MapOK, mapKeys]) h1
    have hval : ∀ pre f post, val = pre ++ f :: post → f.influxTag ≠ "" →
        (∀ g ∈ post, g.influxTag ≠ f.influxTag) →
        mapGet fs0 f.influxTag =
          mapGet fs1 f.influxTag ++ (if f.value.isInteger = true then "i" else "") := by
      intro pre f post hv hf hp
      have e0 := v0 pre f post hv hf hp
      have e1 := v1 pre f post hv hf hp
      rw [toInfluxRepr_mode_ok rt _ _ _ e1] at e0
      exact (Except.ok.inj e0).symm
    refine ⟨hk, hval, ?_, ?_, ?_, ?_⟩
    · intro k hkm
      have hex := (k1 k).mp hkm
      simp only [mapKeys, List.map_nil, List.not_mem_nil, false_or] at hex
      obtain ⟨pre, g, post, h1', h2', h3'⟩ := last_with_tag val k hex.2
      subst h2'
      have := hval pre g post h1' hex.1 h3'
      by_cases hi : g.value.isInteger = true
      · left; rw [this, if_pos hi]
      · right; rw [this, if_neg hi, String.append_empty]
    · unfold Encoder.Encode Encoder.encodeGeneric
      rw [h0]
    · unfold Encoder.EncodeWithoutTypes Encoder.encodeGeneric
      rw [h1]
    · intro hne
      have hne0 : fs0 ≠ [] := by
        intro e
        rw [e] at hk
        cases fs1 with
        | nil => exact hne rfl
        | cons x xs => simp [mapKeys] at hk
      refine ⟨sortStrings (mapKeys fs1), _, ?_, formatLineProtocol_unfold a now pfx tags fs1 hne⟩
      rw [formatLineProtocol_unfold a now pfx tags fs0 hne0, hk]

theorem formatLineProtocol_congr (a : Encoder) (now : Int) (pfx : String)
    (tags tags2 fs fs2 : GoMap)
    (hkT : sortStrings (mapKeys tags2) = sortStrings (mapKeys tags))
    (hvT : ∀ k ∈ mapKeys tags, mapGet tags2 k = mapGet tags k)
    (hkF : sortStrings (mapKeys fs2) = sortStrings (mapKeys fs))
    (hvF : ∀ k ∈ mapKeys fs, mapGet fs2 k = mapGet fs k) :
    a.formatLineProtocol now pfx tags2 fs2 = a.formatLineProtocol now pfx tags fs := by
  unfold Encoder.formatLineProtocol
  simp only [foldl_tagStep, foldl_fieldStep, hkT, hkF]
  have e1 : (sortStrings (mapKeys tags)).map (fun k =>
        "," ++ escapeSpecialChars k ++ "=" ++ escapeSpecialChars (mapGet tags2 k)) =
      (sortStrings (mapKeys tags)).map (fun k =>
        "," ++ escapeSpecialChars k ++ "=" ++ escapeSpecialChars (mapGet tags k)) := by
    apply List.map_congr_left
    intro k hk
    rw [hvT k ((sortStrings_perm _).mem_iff.mp hk)]
  have e2 : (sortStrings (mapKeys fs)).map (fun k =>
        escapeSpecialChars k ++ "=" ++ mapGet fs2 k) =
      (sortStrings (mapKeys fs)).map (fun k => escapeSpecialChars k ++ "=" ++ mapGet fs k) := by
    apply List.map_congr_left
    intro k hk
    rw [hvF k ((sortStrings_perm _).mem_iff.mp hk)]
  rw [e1, e2]

theorem sortStrings_perm_eq (l l2 : List String) (hp : l2.Perm l) (hn : l.Nodup) :
    sortStrings l2 = sortStrings l :=
  ascending_unique ((sortStrings_perm l).trans hp.symm) (sortStrings_ascending l hn)

theorem mem_of_mem_mapKeys (m : GoMap) (k : String) (h : k ∈ mapKeys m) :
    ∃ v, (k, v) ∈ m := by
  unfold mapKeys at h
  obtain ⟨e, he, hk⟩ := List.mem_map.mp h
  exact ⟨e.2, by rw [← hk]; exact he⟩

theorem mapGet_perm (m m2 : GoMap) (hp : m2.Perm m) (hm : MapOK m) (k : String)
    (hk : k ∈ mapKeys m) : mapGet m2 k = mapGet m k := by
  obtain ⟨v, hv⟩ := mem_of_mem_mapKeys m k hk
  have hm2 : MapOK m2 := (hp.map Prod.fst).nodup_iff.mpr hm
  rw [mapGet_of_mem m k v hm hv, mapGet_of_mem m2 k v hm2 (hp.mem_iff.mpr hv)]

/-- Claim C17: for a fixed prefix, host and clock value, two enumerations of the
same tag mapping and of the same field mapping give the same line. -/
theorem formatLineProtocol_deterministic (a : Encoder) (now : Int) (pfx : String)
    (tags tags2 fieldSet fieldSet2 : GoMap) (ht : MapOK tags) (hf : MapOK fieldSet)
    (hpt : tags2.Perm tags) (hpf : fieldSet2.Perm fieldSet) :
    a.formatLineProtocol now pfx tags2 fieldSet2 = a.formatLineProtocol now pfx tags fieldSet :=
  formatLineProtocol_congr a now pfx tags tags2 fieldSet fieldSet2
    (sortStrings_perm_eq _ _ (hpt.map _) ht) (mapGet_perm tags tags2 hpt ht)
    (sortStrings_perm_eq _ _ (hpf.map _) hf) (mapGet_perm fieldSet fieldSet2 hpf hf)

theorem formatLineProtocol_deterministic_witness :
    (NewEncoderWithHostname ⟨fun _ _ => none⟩ "h").formatLineProtocol 7 "m"
        [("baaz gogo", "gu,gu"), ("foo", "bar")] [("b", "true"), ("v", "1i")] =
      (NewEncoderWithHostname ⟨fun _ _ => none⟩ "h").formatLineProtocol 7 "m"
        [("foo", "bar"), ("baaz gogo", "gu,gu")] [("v", "1i"), ("b", "true")] :=
  formatLineProtocol_deterministic _ 7 "m" [("foo", "bar"), ("baaz gogo", "gu,gu")]
    [("baaz gogo", "gu,gu"), ("foo", "bar")] [("v", "1i"), ("b", "true")]
    [("b", "true"), ("v", "1i")] (by unfold MapOK; decide) (by unfold MapOK; decide)
    (by decide) (by decide)

theorem wireTags_append (l1 l2 : List StructField) :
    wireTags (l1 ++ l2) = wireTags l1 ++ wireTags l2 := by
  simp [wireTags]

theorem mem_wireTags (val : List StructField) (k : String) :
    k ∈ wireTags val ↔ k ≠ "" ∧ ∃ f ∈ val, f.influxTag = k := by
  unfold wireTags
  simp only [List.mem_map, List.mem_filter, decide_eq_true_eq]
  constructor
  · rintro ⟨f, ⟨hf, ht⟩, hk⟩
    exact ⟨by rw [← hk]; exact ht, f, hf, hk⟩
  · rintro ⟨hk, f, hf, hfk⟩
    exact ⟨f, ⟨hf, by rw [hfk]; exact hk⟩, hfk⟩

theorem recordFields_value_of_distinct (rt : Runtime) (val : List StructField) (m : Bool)
    (fs : GoMap) (hd : (wireTags val).Nodup) (h : recordFields rt val [] m = .ok fs)
    (f : StructField) (hf : f ∈ val) (ht : f.influxTag ≠ "") :
    toInfluxRepr rt f.influxTag f.value m = .ok (mapGet fs f.influxTag) := by
  obtain ⟨_, _, _, i4⟩ := recordFields_ok rt val m [] fs (by simp [MapOK, mapKeys]) h
  obtain ⟨pre, post, hv⟩ := List.append_of_mem hf
  apply i4 pre f post hv ht
  intro g hg hgt
  rw [hv, wireTags_append, show f :: post = [f] ++ post from rfl, wireTags_append] at hd
  have h1 := (List.nodup_append.mp hd).2.1
  have h2 : wireTags [f] = [f.influxTag] := by
    simp [wireTags, List.filter, ht]
  rw [h2] at h1
  have h3 := (List.nodup_append.mp h1).2.2
  have h4 : f.influxTag ∈ wireTags post :=
    (mem_wireTags post _).mpr ⟨ht, g, hg, hgt⟩
  exact h3 (List.mem_singleton_self _) h4

theorem recordFields_perm (rt : Runtime) (val val2 : List StructField) (m : Bool)
    (hp : val2.Perm val) (hd : (wireTags val).Nodup) (fs : GoMap)
    (h : recordFields rt val [] m = .ok fs) :
    ∃ fs2, recordFields rt val2 [] m = .ok fs2 ∧ (mapKeys fs2).Perm (mapKeys fs) ∧ MapOK fs ∧
      ∀ k ∈ mapKeys fs, mapGet fs2 k = mapGet fs k := by
  have hall := (recordFields_ok_iff rt val m []).mp ⟨fs, h⟩
  have hall2 : ∀ f ∈ val2, f.influxTag ≠ "" →
      ∃ r, toInfluxRepr rt f.influxTag f.value m = .ok r :=
    fun f hf => hall f (hp.mem_iff.mp hf)
  obtain ⟨fs2, h2⟩ := (recordFields_ok_iff rt val2 m []).mpr hall2
  have hd2 : (wireTags val2).Nodup := by
    unfold wireTags at hd ⊢
    exact (((hp.filter _).map _).nodup_iff).mpr hd
  obtain ⟨ok1, k1, _, _⟩ := recordFields_ok rt val m [] fs (by simp [MapOK, mapKeys]) h
  obtain ⟨ok2, k2, _, _⟩ := recordFields_ok rt val2 m [] fs2 (by simp [MapOK, mapKeys]) h2
  refine ⟨fs2, h2, ?_, ok1, ?_⟩
  · apply (List.perm_ext_iff_of_nodup ok2 ok1).mpr
    intro k
    rw [k1 k, k2 k]
    simp only [mapKeys, List.map_nil, List.not_mem_nil, false_or]
    constructor
    · rintro ⟨hk, f, hf, hfk⟩
      exact ⟨hk, f, hp.mem_iff.mp hf, hfk⟩
    · rintro ⟨hk, f, hf, hfk⟩
      exact ⟨hk, f, hp.mem_iff.mpr hf, hfk⟩
  · intro k hk
    have hex := (k1 k).mp hk
    simp only [mapKeys, List.map_nil, List.not_mem_nil, false_or] at hex
    obtain ⟨hk0, f, hf, hfk⟩ := hex
    subst hfk
    have e1 := recordFields_value_of_distinct rt val m fs hd h f hf hk0
    have e2 := recordFields_value_of_distinct rt val2 m fs2 hd2 h2 f (hp.mem_iff.mpr hf) hk0
    rw [e1] at e2
    exact (Except.ok.inj e2).symm

theorem encodeGeneric_perm (a : Encoder) (rt : Runtime) (now : Int) (log : List (List Nat))
    (pfx : String) (tags : GoMap) (val val2 : List StructField) (m : Bool)
    (hp : val2.Perm val) (hd : (wireTags val).Nodup) :
    ((∃ fs, recordFields rt val [] m = .ok fs) →
      a.encodeGeneric rt now log pfx val2 tags m = a.encodeGeneric rt now log pfx val tags m) ∧
    ((∃ e, recordFields rt val [] m = .error e) →
      ∃ e e2, a.encodeGeneric rt now log pfx val tags m = (log, some e) ∧
        a.encodeGeneric rt now log pfx val2 tags m = (log, some e2)) := by
  constructor
  · rintro ⟨fs, h⟩
    obtain ⟨fs2, h2, hk, hok, hv⟩ := recordFields_perm rt val val2 m hp hd fs h
    unfold Encoder.encodeGeneric
    rw [h, h2]
    simp only
    rw [formatLineProtocol_congr a now pfx tags tags fs fs2 rfl (fun _ _ => rfl)
      (sortStrings_perm_eq _ _ hk hok) hv]
  · rintro ⟨e, h⟩
    have hno : ¬ ∃ fs2, recordFields rt val2 [] m = .ok fs2 := by
      intro hex
      have hall := (recordFields_ok_iff rt val2 m []).mp hex
      have : ∃ fs, recordFields rt val [] m = .ok fs :=
        (recordFields_ok_iff rt val m []).mpr (fun f hf => hall f (hp.mem_iff.mpr hf))
      obtain ⟨fs, hfs⟩ := this
      rw [h] at hfs
      cases hfs
    cases h2 : recordFields rt val2 [] m with
    | ok fs2 => exact absurd ⟨fs2, h2⟩ hno
    | error e2 =>
      refine ⟨e, e2, ?_, ?_⟩
      · unfold Encoder.encodeGeneric; rw [h]
      · unfold Encoder.encodeGeneric; rw [h2]

theorem recordFields_error_field (rt : Runtime) (val : List StructField) (m : Bool) :
    ∀ (fs0 : GoMap) (e : String), recordFields rt val fs0 m = .error e →
      ∃ f ∈ val, f.influxTag ≠ "" ∧ toInfluxRepr rt f.influxTag f.value m = .error e := by
  induction val with
  | nil => intro fs0 e h; cases h
  | cons f rest ih =>
    intro fs0 e h
    simp only [recordFields] at h
    by_cases ht : f.influxTag = ""
    · rw [if_pos ht] at h
      obtain ⟨g, hg, h1, h2⟩ := ih fs0 e h
      exact ⟨g, List.mem_cons_of_mem _ hg, h1, h2⟩
    · rw [if_neg ht] at h
      cases hr : toInfluxRepr rt f.influxTag f.value m with
      | error e1 =>
        rw [hr] at h
        simp only [Except.error.injEq] at h
        exact ⟨f, List.mem_cons_self _ _, ht, by rw [hr, h]⟩
      | ok r =>
        rw [hr] at h
        obtain ⟨g, hg, h1, h2⟩ := ih _ e h
        exact ⟨g, List.mem_cons_of_mem _ hg, h1, h2⟩

/-- Claim C16 as stated fails: when two fields declare the same wire tag the
field declared last wins, and when two fields fail the error of the field
declared first is returned, so both outcomes depend on the declaration order. -/
theorem encode_reordered_counterexample :
    (NewEncoderWithHostname ⟨fun _ _ => none⟩ "h").Encode ⟨fun _ => true, fun _ _ => "0"⟩ 7 []
        "m" [⟨"a", .integer .int64 1⟩, ⟨"a", .integer .int64 2⟩] [] =
      ([toBytes "m,host=h a=2i 7\n"], none) ∧
    (NewEncoderWithHostname ⟨fun _ _ => none⟩ "h").Encode ⟨fun _ => true, fun _ _ => "0"⟩ 7 []
        "m" [⟨"a", .integer .int64 2⟩, ⟨"a", .integer .int64 1⟩] [] =
      ([toBytes "m,host=h a=1i 7\n"], none) ∧
    (NewEncoderWithHostname ⟨fun _ _ => none⟩ "h").Encode ⟨fun _ => true, fun _ _ => "0"⟩ 7 []
        "m" [⟨"a", .other⟩, ⟨"b", .other⟩] [] =
      ([], some "a: unsupported type for Influx Line Protocol") ∧
    (NewEncoderWithHostname ⟨fun _ _ => none⟩ "h").Encode ⟨fun _ => true, fun _ _ => "0"⟩ 7 []
        "m" [⟨"b", .other⟩, ⟨"a", .other⟩] [] =
      ([], some "b: unsupported type for Influx Line Protocol") := by
  refine ⟨?_, ?_, ?_, ?_⟩ <;> rfl

/-- Claim C16, amended: for a record whose non-empty wire tags are pairwise
distinct and any reordering of its fields, with the same prefix, tags, host and
clock: when every tagged field converts, `Encode` returns the same result and
writes the same bytes for both orders; when some tagged field fails, `Encode`
fails for both orders without writing, each time with the error of a failing
field. -/
theorem encode_reordered (a : Encoder) (rt : Runtime) (now : Int) (log : List (List Nat))
    (pfx : String) (tags : GoMap) (val val2 : List StructField)
    (hp : val2.Perm val) (hd : (wireTags val).Nodup) :
    ((∀ f ∈ val, f.influxTag ≠ "" → ∃ r, toInfluxRepr rt f.influxTag f.value false = .ok r) →
      a.Encode rt now log pfx val2 tags = a.Encode rt now log pfx val tags) ∧
    (¬ (∀ f ∈ val, f.influxTag ≠ "" →
        ∃ r, toInfluxRepr rt f.influxTag f.value false = .ok r) →
      ∃ e e2, a.Encode rt now log pfx val tags = (log, some e) ∧
        a.Encode rt now log pfx val2 tags = (log, some e2) ∧
        (∃ f ∈ val, f.influxTag ≠ "" ∧ toInfluxRepr rt f.influxTag f.value false = .error e) ∧
        (∃ f ∈ val, f.influxTag ≠ "" ∧ toInfluxRepr rt f.influxTag f.value false = .error e2)) := by
  obtain ⟨h1, h2⟩ := encodeGeneric_perm a rt now log pfx tags val val2 false hp hd
  constructor
  · intro hall
    exact h1 ((recordFields_ok_iff rt val false []).mpr hall)
  · intro hnot
    have herr : ∃ e, recordFields rt val [] false = .error e := by
      cases hr : recordFields rt val [] false with
      | error e => exact ⟨e, rfl⟩
      | ok fs => exact absurd ((recordFields_ok_iff rt val false []).mp ⟨fs, hr⟩) hnot
    obtain ⟨e, e2, he, he2⟩ := h2 herr
    refine ⟨e, e2, he, he2, ?_, ?_⟩
    · unfold Encoder.encodeGeneric at he
      cases hr : recordFields rt val [] false with
      | error e0 =>
        rw [hr] at he
        simp only [Prod.mk.injEq, Option.some.injEq, true_and] at he
        rw [← he]
        exact recordFields_error_field rt val false [] e0 hr
      | ok fs =>
        obtain ⟨e0, h0⟩ := herr
        rw [hr] at h0
        cases h0
    · unfold Encoder.encodeGeneric at he2
      cases hr : recordFields rt val2 [] false with
      | error e0 =>
        rw [hr] at he2
        simp only [Prod.mk.injEq, Option.some.injEq, true_and] at he2
        rw [← he2]
        obtain ⟨f, hf, h3, h4⟩ := recordFields_error_field rt val2 false [] e0 hr
        exact ⟨f, hp.mem_iff.mp hf, h3, h4⟩
      | ok fs =>
        rw [hr] at he2
        simp only [Writer.Write, Prod.mk.injEq] at he2
        have := congrArg List.length he2.1
        simp at this

theorem encode_reordered_witness :
    (NewEncoderWithHostname ⟨fun _ _ => none⟩ "h").Encode ⟨fun _ => true, fun _ _ => "0"⟩ 7 []
        "m" [⟨"b", .integer .int64 2⟩, ⟨"", .other⟩, ⟨"a", .bool true⟩] [("t", "x")] =
      (NewEncoderWithHostname ⟨fun _ _ => none⟩ "h").Encode ⟨fun _ => true, fun _ _ => "0"⟩ 7 []
        "m" [⟨"a", .bool true⟩, ⟨"b", .integer .int64 2⟩, ⟨"", .other⟩] [("t", "x")] :=
  (encode_reordered (NewEncoderWithHostname ⟨fun _ _ => none⟩ "h")
    ⟨fun _ => true, fun _ _ => "0"⟩ 7 [] "m" [("t", "x")]
    [⟨"a", .bool true⟩, ⟨"b", .integer .int64 2⟩, ⟨"", .other⟩]
    [⟨"b", .integer .int64 2⟩, ⟨"", .other⟩, ⟨"a", .bool true⟩]
    (by decide) (by unfold wireTags; decide)).1
    (by
      intro f hf ht
      simp only [List.mem_cons, List.mem_singleton, List.not_mem_nil, or_false] at hf
      rcases hf with e | e | e <;> subst e
      · exact ⟨_, rfl⟩
      · exact ⟨_, rfl⟩
      · exact absurd rfl ht)

theorem string_append_ne_empty (s : String) : s ++ "\n" ≠ "" := by
  intro h
  have := congrArg String.length h
  rw [String.length_append] at this
  have h1 : ("\n" : String).length = 1 := rfl
  have h2 : ("" : String).length = 0 := rfl
  omega

/-- Claim C20: `formatLineProtocol` returns the empty string exactly when the
field mapping is empty; the assembled field segment `out` is empty exactly then;
so a mapping whose only key and value are empty strings still gives a line, and
tags alone give no output. -/
theorem formatLineProtocol_empty_iff (a : Encoder) (now : Int) (pfx : String)
    (tags fieldSet : GoMap) :
    (a.formatLineProtocol now pfx tags fieldSet = "" ↔ fieldSet = []) ∧
    (((sortStrings (mapKeys fieldSet)).foldl (fieldStep fieldSet) ("", true)).1 = "" ↔
      fieldSet = []) ∧
    a.formatLineProtocol now pfx tags [("", "")] ≠ "" ∧
    a.formatLineProtocol now pfx tags [] = "" := by
  have hline : ∀ fs : GoMap, fs ≠ [] → a.formatLineProtocol now pfx tags fs ≠ "" := by
    intro fs hne
    rw [formatLineProtocol_unfold a now pfx tags fs hne]
    exact string_append_ne_empty _
  refine ⟨?_, ?_, hline _ (by simp), formatLineProtocol_nil a now pfx tags⟩
  · constructor
    · intro h
      by_contra hne
      exact hline fieldSet hne h
    · intro h
      rw [h]
      exact formatLineProtocol_nil a now pfx tags
  · constructor
    · intro h
      by_contra hne
      have hk : sortStrings (mapKeys fieldSet) ≠ [] := by
        intro h0
        have hp := (sortStrings_perm (mapKeys fieldSet)).length_eq
        rw [h0] at hp
        cases fieldSet with
        | nil => exact hne rfl
        | cons e es => simp [mapKeys] at hp
      rw [foldl_fieldStep] at h
      cases hs : sortStrings (mapKeys fieldSet) with
      | nil => exact hk hs
      | cons k ks =>
        rw [hs] at h
        exact intercalate_pieces_ne (mapGet fieldSet) k ks h
    · intro h
      rw [h]
      rfl

theorem unescapeFrom_escape (l : List Char) :
    unescapeFrom false (l.flatMap escapeChar) = l ∧
    unescapeFrom true (l.flatMap escapeChar) = '\\' :: l := by
  induction l with
  | nil => exact ⟨rfl, rfl⟩
  | cons c cs ih =>
    rw [List.flatMap_cons]
    rcases escapeChar_cases c with h | h | h | h
    · rw [h.2, h.1]
      simp only [List.cons_append, List.nil_append, unescapeFrom]
      simp [ih.1]
    · rw [h.2, h.1]
      simp only [List.cons_append, List.nil_append, unescapeFrom]
      simp [ih.1]
    · rw [h.2, h.1]
      simp only [List.cons_append, List.nil_append, unescapeFrom]
      simp [ih.1]
    · rw [h.2, List.singleton_append]
      have hs : ¬ (c = ',' ∨ c = '=' ∨ c = ' ') := h.1
      simp only [unescapeFrom, if_neg hs]
      by_cases hb : c = '\\'
      · simp only [if_pos hb, ih.2]
        rw [hb]
        exact ⟨rfl, rfl⟩
      · simp only [if_neg hb, ih.1]
        exact ⟨trivial, trivial⟩

theorem unescape_escape (u : String) : unescapeSpecialChars (escapeSpecialChars u) = u := by
  rw [escapeSpecialChars_eq]
  unfold unescapeSpecialChars escapeCharwise
  simp only [(unescapeFrom_escape u.data).1]

theorem escape_inj (s t : String) (h : escapeSpecialChars s = escapeSpecialChars t) :
    s = t := by
  rw [← unescape_escape s, ← unescape_escape t, h]

/-- Claim C19: `escapeSpecialChars` is injective, and the reader that deletes the
backslash directly before each comma, equals sign and space is a left inverse
of it, although backslashes themselves are not escaped. -/
theorem escapeSpecialChars_injective (s t : String) :
    unescapeSpecialChars (escapeSpecialChars s) = s ∧
    (escapeSpecialChars s = escapeSpecialChars t → s = t) ∧
    escapeSpecialChars "\\" = "\\" :=
  ⟨unescape_escape s, escape_inj s t, by decide⟩

theorem escape_plain (s : String) (h : ∀ c ∈ s.data, ¬ isSpecial c) :
    escapeSpecialChars s = s := by
  rw [escapeSpecialChars_eq]
  unfold escapeCharwise
  apply String.ext
  simp only
  obtain ⟨l⟩ := s
  simp only at h ⊢
  induction l with
  | nil => rfl
  | cons c cs ih =>
    rw [List.flatMap_cons, ih (fun d hd => h d (List.mem_cons_of_mem _ hd))]
    rcases escapeChar_cases c with h1 | h1 | h1 | h1
    · exact absurd (Or.inl h1.1) (h c (List.mem_cons_self _ _))
    · exact absurd (Or.inr (Or.inl h1.1)) (h c (List.mem_cons_self _ _))
    · exact absurd (Or.inr (Or.inr h1.1)) (h c (List.mem_cons_self _ _))
    · rw [h1.2]; rfl

theorem map_escape_plain (ks : List String) (h : ∀ k ∈ ks, ∀ c ∈ k.data, ¬ isSpecial c) :
    ks.map escapeSpecialChars = ks := by
  induction ks with
  | nil => rfl
  | cons k ks ih =>
    rw [List.map_cons, escape_plain k (h k (List.mem_cons_self _ _)),
      ih (fun x hx => h x (List.mem_cons_of_mem _ hx))]

theorem map_escape_nodup (ks : List String) (h : ks.Nodup) :
    (ks.map escapeSpecialChars).Nodup :=
  List.Nodup.map (fun s t hst => escape_inj s t hst) h

/-- Claim C18 as stated fails: the raw keys `a b` and `a!` are emitted in this
order, as the tokens `a\ b` and `a!`, and the first token is greater than the
second one. -/
theorem formatLineProtocol_escaped_order_counterexample :
    (NewEncoderWithHostname ⟨fun _ _ => none⟩ "h").formatLineProtocol 7 "m"
        [("a!", "2"), ("a b", "1")] [("f", "1")] = "m,host=h,a\\ b=1,a!=2 f=1 7\n" ∧
    stringLess "a b" "a!" = true ∧
    stringLess (escapeSpecialChars "a b") (escapeSpecialChars "a!") = false ∧
    stringLess (escapeSpecialChars "a!") (escapeSpecialChars "a b") = true := by
  refine ⟨?_, ?_, ?_, ?_⟩ <;> rfl

/-- Claim C18, amended: for every tag mapping and every non-empty field mapping,
the key tokens of the line are the escaped forms of the keys of the mapping,
each key once, taken in strictly ascending order of the raw keys, and the
tokens are pairwise distinct; when no key
contains a comma, an equals sign or a space, the tokens themselves are in
strictly ascending order. -/
theorem formatLineProtocol_escaped_keys (a : Encoder) (now : Int) (pfx : String)
    (tags fieldSet : GoMap) (ht : MapOK tags) (hf : MapOK fieldSet) (hne : fieldSet ≠ []) :
    ∃ tk fk : List String,
      a.formatLineProtocol now pfx tags fieldSet =
        pfx ++ ",host=" ++ a.host ++
          String.join (tk.map fun k =>
            "," ++ escapeSpecialChars k ++ "=" ++ escapeSpecialChars (mapGet tags k)) ++ " " ++
          ",".intercalate (fk.map fun k => escapeSpecialChars k ++ "=" ++ mapGet fieldSet k) ++
          " " ++ decimal (timestamp now) ++ "\n" ∧
      tk.Perm (mapKeys tags) ∧ fk.Perm (mapKeys fieldSet) ∧
      Ascending tk ∧ Ascending fk ∧
      (tk.map escapeSpecialChars).Nodup ∧ (fk.map escapeSpecialChars).Nodup ∧
      ((∀ k ∈ mapKeys tags, ∀ c ∈ k.data, ¬ isSpecial c) →
        Ascending (tk.map escapeSpecialChars)) ∧
      ((∀ k ∈ mapKeys fieldSet, ∀ c ∈ k.data, ¬ isSpecial c) →
        Ascending (fk.map escapeSpecialChars)) := by
  have h1 := sortStrings_ascending _ ht
  have h2 := sortStrings_ascending _ hf
  refine ⟨sortStrings (mapKeys tags), sortStrings (mapKeys fieldSet),
    formatLineProtocol_unfold a now pfx tags fieldSet hne,
    sortStrings_perm _, sortStrings_perm _, h1, h2,
    map_escape_nodup _ (ascending_nodup h1), map_escape_nodup _ (ascending_nodup h2), ?_, ?_⟩
  · intro h
    rw [map_escape_plain _ (fun k hk => h k ((sortStrings_perm _).mem_iff.mp hk))]
    exact h1
  · intro h
    rw [map_escape_plain _ (fun k hk => h k ((sortStrings_perm _).mem_iff.mp hk))]
    exact h2

theorem formatLineProtocol_escaped_keys_witness :
    ∃ tk fk : List String,
      (NewEncoderWithHostname ⟨fun _ _ => none⟩ "h").formatLineProtocol 7 "m"
          [("foo", "bar"), ("baaz", "gu,gu")] [("v", "1i"), ("b", "true")] =
        "m" ++ ",host=" ++ "h" ++
          String.join (tk.map fun k =>
            "," ++ escapeSpecialChars k ++ "=" ++
              escapeSpecialChars (mapGet [("foo", "bar"), ("baaz", "gu,gu")] k)) ++ " " ++
          ",".intercalate (fk.map fun k =>
            escapeSpecialChars k ++ "=" ++ mapGet [("v", "1i"), ("b", "true")] k) ++
          " " ++ decimal (timestamp 7) ++ "\n" ∧
      tk.Perm (mapKeys [("foo", "bar"), ("baaz", "gu,gu")]) ∧
      fk.Perm (mapKeys [("v", "1i"), ("b", "true")]) ∧
      Ascending tk ∧ Ascending fk ∧
      (tk.map escapeSpecialChars).Nodup ∧ (fk.map escapeSpecialChars).Nodup ∧
      ((∀ k ∈ mapKeys [("foo", "bar"), ("baaz", "gu,gu")], ∀ c ∈ k.data, ¬ isSpecial c) →
        Ascending (tk.map escapeSpecialChars)) ∧
      ((∀ k ∈ mapKeys [("v", "1i"), ("b", "true")], ∀ c ∈ k.data, ¬ isSpecial c) →
        Ascending (fk.map escapeSpecialChars)) :=
  formatLineProtocol_escaped_keys _ 7 "m" [("foo", "bar"), ("baaz", "gu,gu")]
    [("v", "1i"), ("b", "true")] (by unfold MapOK; decide) (by unfold MapOK; decide) (by decide)

theorem join_data (l : List String) : (String.join l).data = l.flatMap String.data := by
  induction l with
  | nil => rfl
  | cons x xs ih => rw [join_cons, String.data_append, ih, List.flatMap_cons]

theorem intercalate_go_data (acc s : String) (l : List String) :
    (String.intercalate.go acc s l).data = acc.data ++ l.flatMap (fun x => s.data ++ x.data) := by
  induction l generalizing acc with
  | nil => simp [String.intercalate.go]
  | cons x xs ih =>
    simp only [String.intercalate.go, ih, String.data_append, List.flatMap_cons,
      List.append_assoc]

theorem intercalate_data (s : String) (l : List String) :
    ∀ c ∈ (s.intercalate l).data, c ∈ s.data ∨ ∃ x ∈ l, c ∈ x.data := by
  intro c hc
  cases l with
  | nil => simp [String.intercalate] at hc
  | cons x xs =>
    simp only [String.intercalate, intercalate_go_data, List.mem_append, List.mem_flatMap] at hc
    rcases hc with h | ⟨y, hy, h | h⟩
    · exact Or.inr ⟨x, List.mem_cons_self _ _, h⟩
    · exact Or.inl h
    · exact Or.inr ⟨y, List.mem_cons_of_mem _ hy, h⟩

theorem mem_escape (s : String) (c : Char) (h : c ∈ (escapeSpecialChars s).data) :
    c = '\\' ∨ c ∈ s.data := by
  rw [escapeSpecialChars_eq] at h
  unfold escapeCharwise at h
  simp only [List.mem_flatMap] at h
  obtain ⟨d, hd, hc⟩ := h
  rcases escapeChar_cases d with h1 | h1 | h1 | h1
  · rw [h1.2] at hc
    simp only [List.mem_cons, List.mem_singleton, List.not_mem_nil, or_false] at hc
    rcases hc with e | e
    · exact Or.inl e
    · right; rw [e, ← h1.1]; exact hd
  · rw [h1.2] at hc
    simp only [List.mem_cons, List.mem_singleton, List.not_mem_nil, or_false] at hc
    rcases hc with e | e
    · exact Or.inl e
    · right; rw [e, ← h1.1]; exact hd
  · rw [h1.2] at hc
    simp only [List.mem_cons, List.mem_singleton, List.not_mem_nil, or_false] at hc
    rcases hc with e | e
    · exact Or.inl e
    · right; rw [e, ← h1.1]; exact hd
  · rw [h1.2] at hc
    simp only [List.mem_singleton] at hc
    right; rw [hc]; exact hd

theorem mapGet_prop (P : String → Prop) (m : GoMap) (k : String) (h0 : P "")
    (h : ∀ e ∈ m, P e.2) : P (mapGet m k) := by
  induction m with
  | nil => exact h0
  | cons e rest ih =>
    obtain ⟨k0, v0⟩ := e
    simp only [mapGet]
    by_cases hk : k0 = k
    · rw [if_pos hk]
      exact h (k0, v0) (List.mem_cons_self _ _)
    · rw [if_neg hk]
      exact ih (fun e he => h e (List.mem_cons_of_mem _ he))

theorem mem_mapSet (m : GoMap) (k v : String) (e : String × String)
    (h : e ∈ mapSet m k v) : e = (k, v) ∨ e ∈ m := by
  induction m with
  | nil =>
    simp only [mapSet, List.mem_singleton] at h
    exact Or.inl h
  | cons e0 rest ih =>
    obtain ⟨k0, v0⟩ := e0
    simp only [mapSet] at h
    by_cases hk : k0 = k
    · rw [if_pos hk] at h
      rcases List.mem_cons.mp h with h1 | h1
      · exact Or.inl h1
      · exact Or.inr (List.mem_cons_of_mem _ h1)
    · rw [if_neg hk] at h
      rcases List.mem_cons.mp h with h1 | h1
      · right; rw [h1]; exact List.mem_cons_self _ _
      · rcases ih h1 with h2 | h2
        · exact Or.inl h2
        · exact Or.inr (List.mem_cons_of_mem _ h2)

theorem recordFields_all (P : String × String → Prop) (rt : Runtime)
    (val : List StructField) (m : Bool)
    (hconv : ∀ f ∈ val, ∀ r, toInfluxRepr rt f.influxTag f.value m = .ok r →
      P (f.influxTag, r)) :
    ∀ fs0 fs : GoMap, (∀ e ∈ fs0, P e) → recordFields rt val fs0 m = .ok fs → ∀ e ∈ fs, P e := by
  induction val with
  | nil =>
    intro fs0 fs h0 h
    simp only [recordFields, Except.ok.injEq] at h
    rw [← h]
    exact h0
  | cons f rest ih =>
    intro fs0 fs h0 h
    have ih' := ih (fun g hg => hconv g (List.mem_cons_of_mem _ hg))
    simp only [recordFields] at h
    by_cases ht : f.influxTag = ""
    · rw [if_pos ht] at h
      exact ih' fs0 fs h0 h
    · rw [if_neg ht] at h
      cases hr : toInfluxRepr rt f.influxTag f.value m with
      | error e => rw [hr] at h; cases h
      | ok r =>
        rw [hr] at h
        apply ih' _ fs _ h
        intro e he
        rcases mem_mapSet _ _ _ _ he with h1 | h1
        · rw [h1]
          exact hconv f (List.mem_cons_self _ _) r hr
        · exact h0 e h1

theorem lowerhex_ne_newline (d : Nat) (h : d < 16) : lowerhex d ≠ '\n' := by
  interval_cases d <;> decide

theorem decimalLoop_chars (fuel : Nat) : ∀ (u : Nat) (buf : List Char) (c : Char),
    c ∈ decimalLoop fuel u buf → c ∈ buf ∨ ∃ d, d < 10 ∧ c = lowerhex d := by
  induction fuel with
  | zero => intro u buf c h; exact Or.inl h
  | succ n ih =>
    intro u buf c h
    simp only [decimalLoop] at h
    by_cases h10 : 10 ≤ u
    · rw [if_pos h10] at h
      rcases ih _ _ c h with h1 | h1
      · rcases List.mem_cons.mp h1 with h2 | h2
        · exact Or.inr ⟨u - u / 10 * 10, by omega, h2⟩
        · exact Or.inl h2
      · exact Or.inr h1
    · rw [if_neg h10] at h
      rcases List.mem_cons.mp h with h2 | h2
      · exact Or.inr ⟨u, by omega, h2⟩
      · exact Or.inl h2

theorem fmtInteger_chars (v : Int) (sg : Bool) (c : Char) (h : c ∈ (fmtInteger v sg).data) :
    c = '-' ∨ ∃ d, d < 10 ∧ c = lowerhex d := by
  unfold fmtInteger at h
  simp only at h
  split_ifs at h
  · rcases List.mem_cons.mp h with h1 | h1
    · exact Or.inl h1
    · rcases decimalLoop_chars _ _ _ c h1 with h2 | h2
      · cases h2
      · exact Or.inr h2
  · rcases decimalLoop_chars _ _ _ c h with h2 | h2
    · cases h2
    · exact Or.inr h2

theorem fmtInteger_no_newline (v : Int) (sg : Bool) : '\n' ∉ (fmtInteger v sg).data := by
  intro h
  rcases fmtInteger_chars v sg _ h with h1 | ⟨d, hd, h1⟩
  · exact absurd h1 (by decide)
  · exact lowerhex_ne_newline d (by omega) h1.symm

theorem token_no_newline (rt : Runtime) (c : Char) : '\n' ∉ appendEscapedRune rt c := by
  have h16 : ∀ n : Nat, n % 16 < 16 := fun n => Nat.mod_lt _ (by decide)
  have hq : ∀ n : Nat, ¬ '\n' = lowerhex (n % 16) :=
    fun n e => lowerhex_ne_newline _ (h16 n) e.symm
  by_cases hc : c = '\n'
  · subst hc
    have : appendEscapedRune rt '\n' = ['\\', 'n'] := rfl
    rw [this]
    decide
  · rcases appendEscapedRune_cases rt c with h | h | h | h | h | h | h
    · rw [h.2]; decide
    · rw [h.2]; decide
    · rw [h.2.2]
      simp only [List.mem_singleton]
      exact fun e => hc e.symm
    · obtain ⟨e, he, _, ht⟩ := h
      rw [ht]
      simp only [List.mem_cons, List.mem_singleton, List.not_mem_nil, or_false] at he
      rcases he with e1 | e1 | e1 | e1 | e1 | e1 | e1 <;> subst e1 <;> decide
    · rw [h.2]
      simp only [List.mem_cons, List.mem_singleton, List.not_mem_nil, or_false, hq, not_or]
      decide
    · rw [h.2]
      simp only [List.mem_cons, List.mem_singleton, List.not_mem_nil, or_false, hq, not_or]
      decide
    · rw [h]
      simp only [List.mem_cons, List.mem_singleton, List.not_mem_nil, or_false, hq, not_or]
      decide

theorem toInfluxRepr_no_newline (rt : Runtime) (tag : String) (v : Value) (m : Bool)
    (r : String) (hrt : ∀ sz b, '\n' ∉ (rt.fmtFloat sz b).data)
    (h : toInfluxRepr rt tag v m = .ok r) : '\n' ∉ r.data := by
  cases v with
  | string s =>
    simp only [toInfluxRepr] at h
    by_cases hl : len s > 64000
    · rw [if_pos hl] at h; cases h
    · rw [if_neg hl] at h
      simp only [Except.ok.injEq] at h
      rw [← h]
      simp only [fmtQuote, quoteBody, List.mem_cons, List.mem_append, List.mem_flatMap,
        List.mem_singleton, List.not_mem_nil, or_false, not_or, not_exists, not_and]
      refine ⟨by decide, ?_, by decide⟩
      intro c _
      exact token_no_newline rt c
  | integer k n =>
    simp only [toInfluxRepr] at h
    cases m
    · simp only [Bool.false_eq_true, if_false, Except.ok.injEq] at h
      rw [← h, String.data_append, List.mem_append, not_or]
      exact ⟨fmtInteger_no_newline _ _, by decide⟩
    · simp only [if_true, Except.ok.injEq] at h
      rw [← h]
      exact fmtInteger_no_newline _ _
  | float64 b =>
    simp only [toInfluxRepr, Except.ok.injEq] at h
    rw [← h]; exact hrt _ _
  | float32 b =>
    simp only [toInfluxRepr, Except.ok.injEq] at h
    rw [← h]; exact hrt _ _
  | bool b =>
    simp only [toInfluxRepr, Except.ok.injEq] at h
    rw [← h]
    cases b <;> decide
  | time t =>
    simp only [toInfluxRepr, Except.ok.injEq] at h
    rw [← h]
    exact fmtInteger_no_newline _ _
  | other => simp [toInfluxRepr] at h

theorem utf8Bytes_newline (c : Char) (h : 10 ∈ utf8Bytes c) : c = '\n' := by
  have key : c.toNat = 10 := by
    unfold utf8Bytes at h
    simp only [] at h
    split_ifs at h <;>
      simp only [List.mem_cons, List.mem_singleton, List.not_mem_nil, or_false] at h <;> omega
  exact char_eq_of_toNat c 10 key

theorem toBytes_no_newline (s : String) (h : '\n' ∉ s.data) : 10 ∉ toBytes s := by
  unfold toBytes
  simp only [List.mem_flatMap, not_exists, not_and]
  intro c hc h10
  rw [utf8Bytes_newline c h10] at hc
  exact h hc

theorem toBytes_append (s t : String) : toBytes (s ++ t) = toBytes s ++ toBytes t := by
  simp [toBytes, String.data_append, List.flatMap_append]

/-- Claim C14 as stated fails: a tag key that contains a newline character is
written as it is, so the written text has a newline in the middle. -/
theorem encode_single_line_counterexample :
    (NewEncoderWithHostname ⟨fun _ _ => none⟩ "h").Encode ⟨fun _ => true, fun _ _ => "0"⟩ 7 []
        "m" [⟨"v", .integer .int64 1⟩] [("a\nb", "c")] =
      ([toBytes "m,host=h,a\nb=c v=1i 7\n"], none) ∧
    (toBytes "m,host=h,a\nb=c v=1i 7\n").count 10 = 2 := by
  constructor <;> rfl

/-- Claim C14, amended: when the prefix, the host, the tag keys and values and
the wire tags of the record contain no newline character (and the `%g` verb
produces none), and the record has a tagged field and all its tagged fields
convert, the text that `Encode` writes is exactly one line: it ends with a
newline character and contains no other one. -/
theorem encode_single_line (a : Encoder) (rt : Runtime) (now : Int) (log : List (List Nat))
    (pfx : String) (val : List StructField) (tags : GoMap)
    (hrt : ∀ sz b, '\n' ∉ (rt.fmtFloat sz b).data)
    (hp : '\n' ∉ pfx.data) (hh : '\n' ∉ a.host.data)
    (ht : ∀ e ∈ tags, '\n' ∉ e.1.data ∧ '\n' ∉ e.2.data)
    (hv : ∀ f ∈ val, '\n' ∉ f.influxTag.data)
    (hall : ∀ f ∈ val, f.influxTag ≠ "" →
      ∃ r, toInfluxRepr rt f.influxTag f.value false = .ok r)
    (hex : ∃ f ∈ val, f.influxTag ≠ "") :
    ∃ text : String, '\n' ∉ text.data ∧ 10 ∉ toBytes text ∧
      a.Encode rt now log pfx val tags =
        (log ++ [toBytes text ++ [10]], a.Writer.result log (toBytes text ++ [10])) := by
  obtain ⟨fs, hfs⟩ := (recordFields_ok_iff rt val false []).mpr hall
  obtain ⟨_, hkeys, _, _⟩ := recordFields_ok rt val false [] fs (by simp [MapOK, mapKeys]) hfs
  have hne : fs ≠ [] := by
    obtain ⟨f, hf, hft⟩ := hex
    have : f.influxTag ∈ mapKeys fs := (hkeys _).mpr (Or.inr ⟨hft, f, hf, rfl⟩)
    intro e
    rw [e] at this
    simp [mapKeys] at this
  have hentries : ∀ e ∈ fs, '\n' ∉ e.1.data ∧ '\n' ∉ e.2.data := by
    apply recordFields_all (fun e => '\n' ∉ e.1.data ∧ '\n' ∉ e.2.data) rt val false _ [] fs
      (by simp) hfs
    intro f hf r hr
    exact ⟨hv f hf, toInfluxRepr_no_newline rt _ _ _ r hrt hr⟩
  have hesc : ∀ s : String, '\n' ∉ s.data → '\n' ∉ (escapeSpecialChars s).data := by
    intro s hs hc
    rcases mem_escape s _ hc with h1 | h1
    · exact absurd h1 (by decide)
    · exact hs h1
  have hkey : ∀ (m : GoMap), (∀ e ∈ m, '\n' ∉ e.1.data ∧ '\n' ∉ e.2.data) →
      ∀ k ∈ sortStrings (mapKeys m), '\n' ∉ k.data := by
    intro m hm k hk
    obtain ⟨v, hkv⟩ := mem_of_mem_mapKeys m k ((sortStrings_perm _).mem_iff.mp hk)
    exact (hm _ hkv).1
  have hget : ∀ (m : GoMap), (∀ e ∈ m, '\n' ∉ e.1.data ∧ '\n' ∉ e.2.data) →
      ∀ k, '\n' ∉ (mapGet m k).data := by
    intro m hm k
    exact mapGet_prop (fun s => '\n' ∉ s.data) m k (by decide) (fun e he => (hm e he).2)
  have happ : ∀ s t : String, '\n' ∉ s.data → '\n' ∉ t.data → '\n' ∉ (s ++ t).data := by
    intro s t hs ht2 hc
    rw [String.data_append, List.mem_append] at hc
    exact hc.elim hs ht2
  have hT : '\n' ∉ (String.join ((sortStrings (mapKeys tags)).map fun k =>
      "," ++ escapeSpecialChars k ++ "=" ++ escapeSpecialChars (mapGet tags k))).data := by
    intro hc
    rw [join_data, List.mem_flatMap] at hc
    obtain ⟨s, hs, hcs⟩ := hc
    obtain ⟨k, hk, hks⟩ := List.mem_map.mp hs
    rw [← hks] at hcs
    exact happ _ _ (happ _ "=" (happ "," _ (by decide) (hesc _ (hkey tags ht k hk)))
      (by decide)) (hesc _ (hget tags ht k)) hcs
  have hF : '\n' ∉ (",".intercalate ((sortStrings (mapKeys fs)).map fun k =>
      escapeSpecialChars k ++ "=" ++ mapGet fs k)).data := by
    intro hc
    rcases intercalate_data _ _ _ hc with h1 | ⟨x, hx, h1⟩
    · exact absurd h1 (by decide)
    · obtain ⟨k, hk, hkx⟩ := List.mem_map.mp hx
      rw [← hkx] at h1
      exact happ _ _ (happ _ "=" (hesc _ (hkey fs hentries k hk)) (by decide))
        (hget fs hentries k) h1
  have hD : '\n' ∉ (decimal (timestamp now)).data := by
    rw [← fmtInteger_timestamp]
    exact fmtInteger_no_newline _ _
  have htext := happ _ _ (happ _ " " (happ _ _ (happ _ " " (happ _ _ (happ _ _
    (happ pfx ",host=" hp (by decide)) hh) hT) (by decide)) hF) (by decide)) hD
  refine ⟨_, htext, toBytes_no_newline _ htext, ?_⟩
  unfold Encoder.Encode Encoder.encodeGeneric
  rw [hfs]
  simp only [Writer.Write]
  rw [formatLineProtocol_unfold a now pfx tags fs hne, toBytes_append]
  rfl

theorem encode_single_line_witness :
    ∃ text : String, '\n' ∉ text.data ∧ 10 ∉ toBytes text ∧
      (NewEncoderWithHostname ⟨fun _ _ => none⟩ "h").Encode ⟨fun _ => true, fun _ _ => "0"⟩ 7 []
          "m" [⟨"v", .integer .int64 1⟩, ⟨"", .other⟩] [("foo", "bar")] =
        ([] ++ [toBytes text ++ [10]], none) :=
  encode_single_line (NewEncoderWithHostname ⟨fun _ _ => none⟩ "h")
    ⟨fun _ => true, fun _ _ => "0"⟩ 7 [] "m" [⟨"v", .integer .int64 1⟩, ⟨"", .other⟩]
    [("foo", "bar")] (fun _ _ => (by decide : '\n' ∉ "0".data)) (by decide) (by decide) (by decide) (by decide)
    (by
      intro f hf ht
      simp only [List.mem_cons, List.mem_singleton, List.not_mem_nil, or_false] at hf
      rcases hf with e | e <;> subst e
      · exact ⟨_, rfl⟩
      · exact absurd rfl ht)
    ⟨⟨"v", .integer .int64 1⟩, by simp, by decide⟩

theorem firstFreeSpace_append (l1 l2 : List Char) :
    ∀ e, firstFreeSpace e l1 = none →
      firstFreeSpace e (l1 ++ l2) =
        (firstFreeSpace (endsWithBackslash e l1) l2).map (· + l1.length) := by
  induction l1 with
  | nil =>
    intro e _
    simp only [List.nil_append, endsWithBackslash, List.length_nil, Nat.add_zero]
    cases firstFreeSpace e l2 <;> rfl
  | cons c cs ih =>
    intro e h
    simp only [firstFreeSpace] at h
    by_cases hc : c = ' ' ∧ e = false
    · rw [if_pos hc] at h; cases h
    · rw [if_neg hc] at h
      have h' : firstFreeSpace (c == '\\') cs = none := by
        cases hf : firstFreeSpace (c == '\\') cs with
        | none => rfl
        | some i => rw [hf] at h; cases h
      rw [List.cons_append]
      simp only [firstFreeSpace, if_neg hc, endsWithBackslash, ih _ h', List.length_cons]
      cases firstFreeSpace (endsWithBackslash (c == '\\') cs) l2 with
      | none => rfl
      | some i => simp only [Option.map_some', Option.some.injEq]; omega

theorem endsWithBackslash_append (l1 l2 : List Char) :
    ∀ e, endsWithBackslash e (l1 ++ l2) = endsWithBackslash (endsWithBackslash e l1) l2 := by
  induction l1 with
  | nil => intro e; rfl
  | cons c cs ih =>
    intro e
    rw [List.cons_append]
    simp only [endsWithBackslash, ih]

theorem firstFreeSpace_append_none (l1 l2 : List Char)
    (h1 : ∀ e, firstFreeSpace e l1 = none) (h2 : ∀ e, firstFreeSpace e l2 = none) :
    ∀ e, firstFreeSpace e (l1 ++ l2) = none := by
  intro e
  rw [firstFreeSpace_append l1 l2 e (h1 e), h2]
  rfl

theorem firstFreeSpace_no_space (l : List Char) (h : ' ' ∉ l) :
    ∀ e, firstFreeSpace e l = none := by
  induction l with
  | nil => intro e; rfl
  | cons c cs ih =>
    intro e
    have hc : ¬ (c = ' ' ∧ e = false) := by
      intro hce
      exact h (by rw [hce.1]; exact List.mem_cons_self _ _)
    simp only [firstFreeSpace, if_neg hc,
      ih (fun hm => h (List.mem_cons_of_mem _ hm)) _]
    rfl

theorem firstFreeSpace_escape (l : List Char) :
    ∀ e, firstFreeSpace e (l.flatMap escapeChar) = none := by
  induction l with
  | nil => intro e; rfl
  | cons c cs ih =>
    intro e
    rw [List.flatMap_cons]
    apply firstFreeSpace_append_none _ _ _ ih
    intro e2
    rcases escapeChar_cases c with h | h | h | h
    · rw [h.2]; cases e2 <;> rfl
    · rw [h.2]; cases e2 <;> rfl
    · rw [h.2]; cases e2 <;> rfl
    · rw [h.2]
      have hc : ¬ (c = ' ' ∧ e2 = false) := fun hce => h.1 (Or.inr (Or.inr hce.1))
      simp only [firstFreeSpace, if_neg hc]
      rfl

theorem endsWithBackslash_escape (l : List Char) :
    ∀ e, endsWithBackslash e (l.flatMap escapeChar) = endsWithBackslash e l := by
  induction l with
  | nil => intro e; rfl
  | cons c cs ih =>
    intro e
    rw [List.flatMap_cons, endsWithBackslash_append, ih]
    simp only [endsWithBackslash]
    congr 1
    rcases escapeChar_cases c with h | h | h | h
    · rw [h.2, h.1]; rfl
    · rw [h.2, h.1]; rfl
    · rw [h.2, h.1]; rfl
    · rw [h.2]; rfl

theorem endsWithBackslash_getLast (l : List Char) :
    ∀ e, l.getLast? ≠ some '\\' → (l = [] → e = false) → endsWithBackslash e l = false := by
  induction l with
  | nil => intro e _ h; exact h rfl
  | cons c cs ih =>
    intro e h _
    simp only [endsWithBackslash]
    apply ih
    · cases cs with
      | nil => simp
      | cons d ds =>
        rw [List.getLast?_cons_cons] at h
        exact h
    · intro hcs
      rw [hcs] at h
      simp only [List.getLast?_singleton, ne_eq, Option.some.injEq] at h
      simpa using h

theorem endsWithBackslash_no_backslash (l : List Char) (h : '\\' ∉ l) :
    endsWithBackslash false l = false := by
  apply endsWithBackslash_getLast l false _ (fun _ => rfl)
  intro hl
  exact h (List.mem_of_getLast?_eq_some hl)

theorem tagSegment_data (es : List (String × String)) :
    (tagSegment es).data = es.flatMap (fun e =>
      (',' :: (escapeSpecialChars e.1).data) ++ ('=' :: (escapeSpecialChars e.2).data)) := by
  unfold tagSegment
  rw [join_data]
  induction es with
  | nil => rfl
  | cons e rest ih =>
    simp only [List.map_cons, List.flatMap_cons, ih, String.data_append]
    simp [List.append_assoc]

theorem endsWithBackslash_last (l : List Char) (c : Char) :
    ∀ e, l.getLast? = some c → endsWithBackslash e l = (c == '\\') := by
  induction l with
  | nil => intro e h; cases h
  | cons d ds ih =>
    intro e h
    simp only [endsWithBackslash]
    cases ds with
    | nil =>
      simp only [List.getLast?_singleton, Option.some.injEq] at h
      rw [h]
      rfl
    | cons x xs =>
      rw [List.getLast?_cons_cons] at h
      exact ih _ h

theorem endsWithBackslash_false_iff (l : List Char) :
    endsWithBackslash false l = false ↔ l.getLast? ≠ some '\\' := by
  constructor
  · intro h hl
    rw [endsWithBackslash_last l '\\' false hl] at h
    exact absurd h (by decide)
  · intro h
    exact endsWithBackslash_getLast l false h (fun _ => rfl)

theorem tagSegment_scan (es : List (String × String)) :
    (∀ e, firstFreeSpace e (tagSegment es).data = none) ∧
    ∀ b, endsWithBackslash b (tagSegment es).data =
      match es.getLast? with
      | none => b
      | some x => endsWithBackslash false x.2.data := by
  rw [tagSegment_data]
  induction es with
  | nil => exact ⟨fun _ => rfl, fun _ => rfl⟩
  | cons x rest ih =>
    obtain ⟨i1, i2⟩ := ih
    rw [List.flatMap_cons]
    have hk : ∀ e, firstFreeSpace e (',' :: (escapeSpecialChars x.1).data) = none := by
      intro e
      have := firstFreeSpace_append_none [','] (escapeSpecialChars x.1).data
        (firstFreeSpace_no_space _ (by decide))
        (by rw [escapeSpecialChars_eq]; exact firstFreeSpace_escape _) e
      exact this
    have hval : ∀ e, firstFreeSpace e ('=' :: (escapeSpecialChars x.2).data) = none := by
      intro e
      have := firstFreeSpace_append_none ['='] (escapeSpecialChars x.2).data
        (firstFreeSpace_no_space _ (by decide))
        (by rw [escapeSpecialChars_eq]; exact firstFreeSpace_escape _) e
      exact this
    refine ⟨firstFreeSpace_append_none _ _ (firstFreeSpace_append_none _ _ hk hval) i1, ?_⟩
    intro b
    rw [endsWithBackslash_append, endsWithBackslash_append]
    have hend : endsWithBackslash (endsWithBackslash b (',' :: (escapeSpecialChars x.1).data))
        ('=' :: (escapeSpecialChars x.2).data) = endsWithBackslash false x.2.data := by
      simp only [endsWithBackslash]
      rw [escapeSpecialChars_eq]
      unfold escapeCharwise
      simp only
      rw [endsWithBackslash_escape]
      rfl
    rw [hend, i2]
    cases rest with
    | nil => rfl
    | cons y ys =>
      rw [List.getLast?_cons_cons, List.getLast?_eq_getLast (y :: ys) (by simp)]

/-- Claim C15 as stated fails: when a tag value ends with a backslash, the space
that separates tags from fields directly follows a backslash, and the first
space that does not is found later in the line. -/
theorem formatLineProtocol_separator_counterexample :
    (NewEncoderWithHostname ⟨fun _ _ => none⟩ "h").formatLineProtocol 7 "m"
        [("k", "v\\")] [("f", "1")] = "m,host=h,k=v\\ f=1 7\n" ∧
    ("m" ++ ",host=" ++ "h" ++ tagSegment [("k", "v\\")]).data.length = 13 ∧
    firstFreeSpace false ("m,host=h,k=v\\ f=1 7\n" : String).data = some 17 := by
  refine ⟨?_, ?_, ?_⟩ <;> rfl

/-- Claim C15, amended: for every prefix and host containing neither a space nor
a backslash, every tag mapping in which the value of the last tag in key order
does not end with a backslash, and every non-empty field mapping, the first
space of the line that does not directly follow a backslash is the separator
between the tag segment and the field segment: the text before it is the
prefix, `,host=`, the host and the tag segment, and the field segment begins
right after it.  When the value of the last tag does end with a backslash, the
first such space is not the separator. -/
theorem formatLineProtocol_separator (a : Encoder) (now : Int) (pfx : String)
    (tags fieldSet te fe : GoMap)
    (hps : ' ' ∉ pfx.data) (hpb : '\\' ∉ pfx.data)
    (hhs : ' ' ∉ a.host.data) (hhb : '\\' ∉ a.host.data)
    (hne : fieldSet ≠ [])
    (hte : te.Perm tags) (hta : Ascending (mapKeys te))
    (hfe : fe.Perm fieldSet) (hfa : Ascending (mapKeys fe)) :
    a.formatLineProtocol now pfx tags fieldSet =
      (pfx ++ ",host=" ++ a.host ++ tagSegment te) ++ " " ++
        (fieldSegment fe ++ " " ++ decimal (timestamp now) ++ "\n") ∧
    (firstFreeSpace false (a.formatLineProtocol now pfx tags fieldSet).data =
        some (pfx ++ ",host=" ++ a.host ++ tagSegment te).data.length ↔
      ∀ e, te.getLast? = some e → e.2.data.getLast? ≠ some '\\') := by
  have hline : a.formatLineProtocol now pfx tags fieldSet =
      (pfx ++ ",host=" ++ a.host ++ tagSegment te) ++ " " ++
        (fieldSegment fe ++ " " ++ decimal (timestamp now) ++ "\n") := by
    rw [formatLineProtocol_unfold a now pfx tags fieldSet hne]
    unfold tagSegment fieldSegment
    rw [sorted_keys_pieces tags te hte hta
        (fun k v => "," ++ escapeSpecialChars k ++ "=" ++ escapeSpecialChars v),
      sorted_keys_pieces fieldSet fe hfe hfa (fun k v => escapeSpecialChars k ++ "=" ++ v)]
    simp only [String.append_assoc]
  refine ⟨hline, ?_⟩
  have _ := hpb
  obtain ⟨t1, t2⟩ := tagSegment_scan te
  have hhead : ∀ e, firstFreeSpace e (pfx ++ ",host=" ++ a.host ++ tagSegment te).data = none := by
    simp only [String.data_append]
    exact firstFreeSpace_append_none _ _ (firstFreeSpace_append_none _ _
      (firstFreeSpace_append_none _ _ (firstFreeSpace_no_space _ hps)
        (firstFreeSpace_no_space _ (by decide))) (firstFreeSpace_no_space _ hhs)) t1
  have hend : endsWithBackslash false (pfx ++ ",host=" ++ a.host ++ tagSegment te).data =
      match te.getLast? with
      | none => false
      | some x => endsWithBackslash false x.2.data := by
    simp only [String.data_append]
    rw [endsWithBackslash_append, endsWithBackslash_append, endsWithBackslash_append]
    have e1 : ∀ e, endsWithBackslash e (",host=" : String).data = false := by
      intro e; cases e <;> rfl
    rw [e1, endsWithBackslash_no_backslash _ hhb, t2]
  have hscan : firstFreeSpace false (a.formatLineProtocol now pfx tags fieldSet).data =
      (firstFreeSpace (endsWithBackslash false (pfx ++ ",host=" ++ a.host ++ tagSegment te).data)
        (' ' :: (fieldSegment fe ++ " " ++ decimal (timestamp now) ++ "\n").data)).map
        (· + (pfx ++ ",host=" ++ a.host ++ tagSegment te).data.length) := by
    rw [hline, String.data_append, String.data_append, List.append_assoc,
      firstFreeSpace_append _ _ false (hhead false)]
    rfl
  rw [hscan, hend]
  cases hl : te.getLast? with
  | none =>
    simp [firstFreeSpace]
  | some x =>
    simp only [Option.some.injEq, forall_eq']
    rw [← endsWithBackslash_false_iff]
    cases hb : endsWithBackslash false x.2.data with
    | false => simp [firstFreeSpace]
    | true =>
      simp only [firstFreeSpace, Bool.true_eq_false, and_false, if_false, Option.map_map]
      constructor
      · intro h
        exfalso
        cases hf : firstFreeSpace (' ' == '\\')
            (fieldSegment fe ++ " " ++ decimal (timestamp now) ++ "\n").data with
        | none => rw [hf] at h; cases h
        | some i =>
          rw [hf] at h
          simp only [Option.map_some', Function.comp, Option.some.injEq] at h
          omega
      · intro h
        cases h

theorem formatLineProtocol_separator_witness :
    (NewEncoderWithHostname ⟨fun _ _ => none⟩ "h").formatLineProtocol 7 "m"
        [("foo", "bar"), ("baaz gogo", "gu,gu\\")] [("v", "1i"), ("b", "true")] =
      ("m" ++ ",host=" ++ "h" ++ tagSegment [("baaz gogo", "gu,gu\\"), ("foo", "bar")]) ++
        " " ++
        (fieldSegment [("b", "true"), ("v", "1i")] ++ " " ++ decimal (timestamp 7) ++ "\n") ∧
    firstFreeSpace false ((NewEncoderWithHostname ⟨fun _ _ => none⟩ "h").formatLineProtocol 7
        "m" [("foo", "bar"), ("baaz gogo", "gu,gu\\")] [("v", "1i"), ("b", "true")]).data =
      some ("m" ++ ",host=" ++ "h" ++
        tagSegment [("baaz gogo", "gu,gu\\"), ("foo", "bar")]).data.length :=
  ⟨(formatLineProtocol_separator (NewEncoderWithHostname ⟨fun _ _ => none⟩ "h") 7 "m"
      [("foo", "bar"), ("baaz gogo", "gu,gu\\")] [("v", "1i"), ("b", "true")]
      [("baaz gogo", "gu,gu\\"), ("foo", "bar")] [("b", "true"), ("v", "1i")]
      (by decide) (by decide) (by decide) (by decide) (by decide)
      (by decide) (by unfold Ascending; decide) (by decide) (by unfold Ascending; decide)).1,
    (formatLineProtocol_separator (NewEncoderWithHostname ⟨fun _ _ => none⟩ "h") 7 "m"
      [("foo", "bar"), ("baaz gogo", "gu,gu\\")] [("v", "1i"), ("b", "true")]
      [("baaz gogo", "gu,gu\\"), ("foo", "bar")] [("b", "true"), ("v", "1i")]
      (by decide) (by decide) (by decide) (by decide) (by decide)
      (by decide) (by unfold Ascending; decide) (by decide)
      (by unfold Ascending; decide)).2.mpr
      (by
        intro e he
        simp only [List.getLast?_cons_cons, List.getLast?_singleton, Option.some.injEq] at he
        rw [← he]
        decide)⟩

end Fluxline
